import Mathlib

/-!
# Verification of the Minesweeper board engine

Shallow embedding of the board-state engine (`src/logic/gameLogic.ts` and
`src/types/index.ts`) of the `testsweeper` repository, together with proofs
settling the frozen specification claims.

Conventions of the embedding:
* `number` cell contents become `CellContent` (a two-variant sum, mine vs
  adjacency count), as the data model describes.
* Row/column indices are `Int` (JavaScript numbers may be negative; validity
  is established by `isValidPosition`, exactly as in the source).
* Board dimensions (`rows`, `cols`, `mineCount`) are `Nat`; the JavaScript
  source clamps negative lengths to zero (`Array.from({length})`) so the
  `Nat` domain matches the reachable behaviour, and every claim restricts to
  non-negative parameters.
* The random source of `generateMinePositions` (`Math.random`) is made an
  explicit parameter `rand : Nat → Nat`; the Fisher-Yates index
  `Math.floor(Math.random()*(i+1))` — an arbitrary value in `[0,i]` — is
  embedded as `rand (i+1) % (i+2)`, and all theorems quantify over `rand`.
* The recursive flood fill of `revealCell` is defined with explicit fuel;
  `revealCell` supplies fuel `unrevealedCount board + 1`, which is proven
  sufficient (`revealCellFuel_fuel_irrelevant`), so the definition agrees
  with the source recursion, which terminates for the same reason.
-/

namespace Minesweeper

/-- `src/types/index.ts`: `CellContent = 'mine' | number`. -/
inductive CellContent : Type where
  | mine : CellContent
  | num : Nat → CellContent
deriving DecidableEq, Repr

/-- `src/types/index.ts`: `CellState`. -/
structure CellState : Type where
  content : CellContent
  isRevealed : Bool
  isFlagged : Bool
deriving DecidableEq, Repr

/-- `Board = CellState[][]`. -/
abbrev Board : Type := List (List CellState)

/-- `Position = {row, col}` — integer pair, not bounds-checked by construction. -/
structure Position : Type where
  row : Int
  col : Int
deriving DecidableEq, Repr

/-- `GameConfig = {rows, cols, mineCount}`. -/
structure GameConfig : Type where
  rows : Nat
  cols : Nat
  mineCount : Nat
deriving DecidableEq, Repr

/-! ## List helpers

The source mutates one cell of a freshly copied grid; we embed that as a
point update on lists, with bespoke helpers so that all index/count lemmas
are self-contained. -/

/-- Apply `f` at index `n`, identity elsewhere (no-op when out of range). -/
def updateNth (f : α → α) : Nat → List α → List α
  | _, [] => []
  | 0, a :: as => f a :: as
  | n + 1, a :: as => a :: updateNth f n as

/-- Map with the element's index, starting at `i`. -/
def mapIdxFrom (f : Nat → α → β) : Nat → List α → List β
  | _, [] => []
  | i, a :: as => f i a :: mapIdxFrom f (i + 1) as

/-! ## Geometry (`gameLogic.ts` lines 26-60) -/

/-- `isValidPosition`: `row >= 0 && row < rows && col >= 0 && col < cols`. -/
def isValidPosition (row col : Int) (rows cols : Nat) : Bool :=
  decide (0 ≤ row) && decide (row < (rows : Int)) &&
    decide (0 ≤ col) && decide (col < (cols : Int))

/-- The eight direction offsets, in source order. -/
def directions : List (Int × Int) :=
  [(-1, -1), (-1, 0), (-1, 1), (0, -1), (0, 1), (1, -1), (1, 0), (1, 1)]

/-- `getNeighbors`: the up-to-8 valid positions at Chebyshev distance 1. -/
def getNeighbors (row col : Int) (rows cols : Nat) : List Position :=
  directions.filterMap fun d =>
    if isValidPosition (row + d.1) (col + d.2) rows cols then
      some ⟨row + d.1, col + d.2⟩
    else none

/-! ## Cell access -/

/-- Read the cell at integer coordinates; `none` when absent
(the source only indexes after a validity check). -/
def cellAt (b : Board) (r c : Int) : Option CellState :=
  if r < 0 ∨ c < 0 then none
  else b[r.toNat]?.bind fun row => row[c.toNat]?

/-- Point update at integer coordinates (identity when out of range;
the source only writes to validated in-range coordinates). -/
def updateCell (b : Board) (r c : Int) (f : CellState → CellState) : Board :=
  if r < 0 ∨ c < 0 then b
  else updateNth (updateNth f c.toNat) r.toNat b

/-- `board[r][c].content === 'mine'` at validated coordinates. -/
def isMineAt (b : Board) (r c : Int) : Bool :=
  match cellAt b r c with
  | some cell => cell.content == CellContent.mine
  | none => false

def revealedAt (b : Board) (r c : Int) : Bool :=
  match cellAt b r c with
  | some cell => cell.isRevealed
  | none => false

def flaggedAt (b : Board) (r c : Int) : Bool :=
  match cellAt b r c with
  | some cell => cell.isFlagged
  | none => false

/-- All cells of the board satisfy `p` (row-major conjunction). -/
def allCells (p : CellState → Bool) (b : Board) : Bool :=
  b.all fun row => row.all p

/-- The board is a rectangular grid: every row as long as the first. -/
def Rect (b : Board) : Bool :=
  b.all fun row => row.length == (b.headD []).length

/-! ## Board construction (`gameLogic.ts` lines 6-21, 109-186) -/

/-- `createEmptyCell`: `content: 0, isRevealed: false, isFlagged: false`. -/
def createEmptyCell : CellState :=
  { content := CellContent.num 0, isRevealed := false, isFlagged := false }

/-- `createEmptyBoard`. -/
def createEmptyBoard (rows cols : Nat) : Board :=
  List.replicate rows (List.replicate cols createEmptyCell)

/-- `placeMines`: set `content = 'mine'` at each listed position. -/
def placeMines (b : Board) (ps : List Position) : Board :=
  ps.foldl (fun acc p =>
    updateCell acc p.row p.col fun cell => { cell with content := CellContent.mine }) b

/-- `countAdjacentMines` (`gameLogic.ts` lines 122-136). -/
def countAdjacentMines (b : Board) (r c : Int) : Nat :=
  let rows := b.length
  if rows = 0 then 0
  else
    let cols := (b.headD []).length
    if cols = 0 then 0
    else if !isValidPosition r c rows cols then 0
    else ((getNeighbors r c rows cols).filter fun p => isMineAt b p.row p.col).length

/-- `calculateNumbers` (`gameLogic.ts` lines 141-158): recompute every
non-mine cell's content from the input board. -/
def calculateNumbers (b : Board) : Board :=
  if b.length = 0 then []
  else if (b.headD []).length = 0 then b.map fun _ => []
  else
    mapIdxFrom (fun r row =>
      mapIdxFrom (fun c cell =>
        if cell.content == CellContent.mine then cell
        else { cell with content := CellContent.num (countAdjacentMines b r c) }) 0 row) 0 b

/-! ## Mine placement (`gameLogic.ts` lines 66-104) -/

/-- The excluded positions: first click plus its valid neighbours.
The source stores these in a `Set<string>`; the list below is
duplicate-free (`exclusionList_nodup`), so its length is the set's size. -/
def exclusionList (rows cols : Nat) : Option Position → List Position
  | none => []
  | some p => p :: getNeighbors p.row p.col rows cols

/-- All grid positions in raster order. -/
def gridPositions (rows cols : Nat) : List Position :=
  (List.range rows).flatMap fun (r : Nat) =>
    (List.range cols).map fun (c : Nat) => ⟨(r : Int), (c : Int)⟩

/-- One Fisher-Yates swap: exchange indices `i` and `j`. -/
def swapAt (l : List α) (i j : Nat) : List α :=
  match l[i]?, l[j]? with
  | some a, some b => updateNth (fun _ => a) j (updateNth (fun _ => b) i l)
  | _, _ => l

/-- The Fisher-Yates loop, from index `i` down to 1. -/
def shuffleFrom (rand : Nat → Nat) : Nat → List α → List α
  | 0, l => l
  | i + 1, l => shuffleFrom rand i (swapAt l (i + 1) (rand (i + 1) % (i + 2)))

/-- Fisher-Yates shuffle with explicit random source. -/
def fisherYates (rand : Nat → Nat) (l : List α) : List α :=
  shuffleFrom rand (l.length - 1) l

/-- `generateMinePositions` (`gameLogic.ts` lines 66-104). The `filter`
fuses the source's per-cell exclusion test into the raster enumeration. -/
def generateMinePositions (rand : Nat → Nat) (rows cols mineCount : Nat)
    (excludePosition : Option Position) : List Position :=
  let excludedSet := exclusionList rows cols excludePosition
  let availableCells := rows * cols - excludedSet.length
  let actualMineCount := Nat.min mineCount availableCells
  let allPositions := (gridPositions rows cols).filter fun p => decide (p ∉ excludedSet)
  (fisherYates rand allPositions).take actualMineCount

/-- `createBoard` (`gameLogic.ts` lines 163-172). -/
def createBoard (rand : Nat → Nat) (config : GameConfig)
    (excludePosition : Option Position) : Board :=
  calculateNumbers (placeMines (createEmptyBoard config.rows config.cols)
    (generateMinePositions rand config.rows config.cols config.mineCount excludePosition))

/-- `createBoardWithMines` (`gameLogic.ts` lines 177-186). -/
def createBoardWithMines (rows cols : Nat) (minePositions : List Position) : Board :=
  calculateNumbers (placeMines (createEmptyBoard rows cols) minePositions)

/-! ## Win/loss predicates and counters (`gameLogic.ts` lines 191-216, 293-303) -/

/-- `checkGameLost`: some mine cell is revealed. -/
def checkGameLost (b : Board) : Bool :=
  b.any fun row => row.any fun cell => cell.content == CellContent.mine && cell.isRevealed

/-- `checkGameWon`: every non-mine cell revealed, and the board non-degenerate. -/
def checkGameWon (b : Board) : Bool :=
  (b.all fun row => row.all fun cell => cell.content == CellContent.mine || cell.isRevealed) &&
    (decide (0 < b.length) && decide (0 < (b.headD []).length))

/-- `countFlags`. -/
def countFlags (b : Board) : Nat :=
  (b.map fun row => row.countP fun cell => cell.isFlagged).sum

/-- Number of mine cells on the board. -/
def countMines (b : Board) : Nat :=
  (b.map fun row => row.countP fun cell => cell.content == CellContent.mine).sum

/-- Number of cells with `isRevealed = false`. -/
def unrevealedCount (b : Board) : Nat :=
  (b.map fun row => row.countP fun cell => !cell.isRevealed).sum

/-- Number of cells with `isRevealed = true`. -/
def revealedCount (b : Board) : Nat :=
  (b.map fun row => row.countP fun cell => cell.isRevealed).sum

/-! ## Game state transitions (`gameLogic.ts` lines 222-288) -/

/-- `revealCell` body with explicit fuel for the flood-fill recursion.
Apart from the fuel, each branch mirrors the source: the guard cascade
(degenerate board, invalid position, flagged or revealed target), the copy
with the target revealed, and the early return on
`content === 'mine' || content > 0` — here the `mine` and `num (n+1)`
match arms — with the flood fold over the neighbours otherwise.  The
source re-reads `newBoard[row][col].content`, which equals `cell.content`
because only `isRevealed` was written. -/
def revealCellFuel : Nat → Board → Int → Int → Board
  | 0, b, _, _ => b
  | fuel + 1, b, row, col =>
    if b.length = 0 then b
    else if (b.headD []).length = 0 then b
    else if !isValidPosition row col b.length (b.headD []).length then b
    else
      match cellAt b row col with
      | none => b
      | some cell =>
        if cell.isFlagged || cell.isRevealed then b
        else
          match cell.content with
          | CellContent.mine => updateCell b row col fun x => { x with isRevealed := true }
          | CellContent.num (_ + 1) => updateCell b row col fun x => { x with isRevealed := true }
          | CellContent.num 0 =>
            (getNeighbors row col b.length (b.headD []).length).foldl
              (fun acc p => revealCellFuel fuel acc p.row p.col)
              (updateCell b row col fun x => { x with isRevealed := true })

/-- `revealCell` (`gameLogic.ts` lines 222-253): the fuel
`unrevealedCount b + 1` is sufficient, because every recursive descent
first reveals a previously unrevealed cell. -/
def revealCell (b : Board) (row col : Int) : Board :=
  revealCellFuel (unrevealedCount b + 1) b row col

/-- `revealAllMines` (`gameLogic.ts` lines 258-265). -/
def revealAllMines (b : Board) : Board :=
  b.map fun row =>
    row.map fun cell =>
      { cell with isRevealed := if cell.content == CellContent.mine then true else cell.isRevealed }

/-- `toggleFlag` (`gameLogic.ts` lines 271-288). -/
def toggleFlag (b : Board) (row col : Int) : Board :=
  if b.length = 0 then b
  else if (b.headD []).length = 0 then b
  else if !isValidPosition row col b.length (b.headD []).length then b
  else
    match cellAt b row col with
    | none => b
    | some cell =>
      if cell.isRevealed then b
      else updateCell b row col fun c => { c with isFlagged := !c.isFlagged }

/-! ## Predicates used by the claims -/

/-- The data-model invariant: no cell is both flagged and revealed. -/
abbrev NoFlagRevealed (b : Board) : Prop :=
  allCells (fun cell => !(cell.isFlagged && cell.isRevealed)) b = true

/-- No mine cell is flagged. -/
abbrev NoFlaggedMine (b : Board) : Prop :=
  allCells (fun cell => !(cell.content == CellContent.mine && cell.isFlagged)) b = true

/-- No cell is flagged. -/
abbrev NoFlags (b : Board) : Prop :=
  allCells (fun cell => !cell.isFlagged) b = true

/-- No cell is revealed. -/
abbrev NoRevealed (b : Board) : Prop :=
  allCells (fun cell => !cell.isRevealed) b = true

/-- Two boards that agree on shape, on every content, and on every
non-mine cell entirely; only mine cells' `isRevealed`/`isFlagged` may
differ. -/
def MinesCosmetic (b b2 : Board) : Prop :=
  List.Forall₂ (List.Forall₂ (fun x y =>
    x.content = y.content ∧ (x.content ≠ CellContent.mine → x = y))) b b2

/-! ## Flood-fill reachability (claim C2's vocabulary)

`ZeroStep`/`ZeroReach`/`InZeroRegion`/`BordersZeroRegion` formalise the
claim's "connected region of zero cells plus the numbered cells bordering
that region", with adjacency given by the source's `getNeighbors`.
`FloodStep`/`FloodReach`/`ReachSet` are the algorithm-facing variants that
additionally require the zero cells to be unrevealed and unflagged — the
cells the recursion actually crosses. -/

/-- Content of the cell at the given coordinates. -/
def contentAt (b : Board) (r c : Int) : Option CellContent :=
  (cellAt b r c).map fun cell => cell.content

/-- The cell at `p` is an unrevealed, unflagged zero cell. -/
def ZeroUnrev (b : Board) (p : Position) : Prop :=
  contentAt b p.row p.col = some (CellContent.num 0) ∧
    revealedAt b p.row p.col = false ∧ flaggedAt b p.row p.col = false

/-- One flood step: from an unrevealed unflagged zero cell to a neighbour. -/
def FloodStep (b : Board) (p q : Position) : Prop :=
  ZeroUnrev b p ∧ q ∈ getNeighbors p.row p.col b.length (b.headD []).length

/-- Reflexive-transitive flood reachability. -/
def FloodReach (b : Board) (s q : Position) : Prop :=
  Relation.ReflTransGen (FloodStep b) s q

/-- One step through the connected zero region, regardless of state. -/
def ZeroStep (b : Board) (p q : Position) : Prop :=
  contentAt b p.row p.col = some (CellContent.num 0) ∧
    q ∈ getNeighbors p.row p.col b.length (b.headD []).length

def ZeroReach (b : Board) (s q : Position) : Prop :=
  Relation.ReflTransGen (ZeroStep b) s q

/-- `p` lies in the connected region of zero cells containing `s`. -/
def InZeroRegion (b : Board) (s p : Position) : Prop :=
  ZeroReach b s p ∧ contentAt b p.row p.col = some (CellContent.num 0)

/-- `p` is adjacent to the zero region of `s` (its one-ring border). -/
def BordersZeroRegion (b : Board) (s p : Position) : Prop :=
  ∃ q, InZeroRegion b s q ∧
    p ∈ getNeighbors q.row q.col b.length (b.headD []).length

/-- The set of positions the flood fill starting at `s` reveals. -/
def ReachSet (b : Board) (s p : Position) : Prop :=
  isValidPosition s.row s.col b.length (b.headD []).length = true ∧
    flaggedAt b s.row s.col = false ∧ revealedAt b s.row s.col = false ∧
    (p = s ∨ ∃ q, FloodReach b s q ∧ ZeroUnrev b q ∧
      p ∈ getNeighbors q.row q.col b.length (b.headD []).length)

/-! ## Lemmas: list helpers -/

theorem updateNth_length (f : α → α) (n : Nat) (l : List α) :
    (updateNth f n l).length = l.length := by
  induction l generalizing n with
  | nil => cases n <;> rfl
  | cons a as ih =>
    cases n with
    | zero => rfl
    | succ m => simp [updateNth, ih]

theorem updateNth_getElem? (f : α → α) (n : Nat) (l : List α) (m : Nat) :
    (updateNth f n l)[m]? = if n = m then l[m]?.map f else l[m]? := by
  induction l generalizing n m with
  | nil => cases n <;> simp [updateNth]
  | cons a as ih =>
    cases n with
    | zero =>
      cases m with
      | zero => simp [updateNth]
      | succ m' => simp [updateNth]
    | succ n' =>
      cases m with
      | zero => simp [updateNth]
      | succ m' => simpa [updateNth] using ih n' m'

theorem countP_updateNth (p : α → Bool) (f : α → α) (n : Nat) (l : List α) (a : α)
    (h : l[n]? = some a) :
    (updateNth f n l).countP p + (if p a then 1 else 0)
      = l.countP p + (if p (f a) then 1 else 0) := by
  induction l generalizing n with
  | nil => simp at h
  | cons x xs ih =>
    cases n with
    | zero =>
      simp only [List.getElem?_cons_zero] at h
      injection h with h; subst h
      simp only [updateNth, List.countP_cons]
      omega
    | succ m =>
      simp only [List.getElem?_cons_succ] at h
      have ihm := ih m h
      simp only [updateNth, List.countP_cons]
      omega

theorem mapIdxFrom_length (f : Nat → α → β) (i : Nat) (l : List α) :
    (mapIdxFrom f i l).length = l.length := by
  induction l generalizing i with
  | nil => rfl
  | cons a as ih => simp [mapIdxFrom, ih]

theorem mapIdxFrom_getElem? (f : Nat → α → β) (i : Nat) (l : List α) (n : Nat) :
    (mapIdxFrom f i l)[n]? = l[n]?.map (f (i + n)) := by
  induction l generalizing i n with
  | nil => simp [mapIdxFrom]
  | cons a as ih =>
    cases n with
    | zero => simp [mapIdxFrom]
    | succ m =>
      have := ih (i + 1) m
      simp only [mapIdxFrom, List.getElem?_cons_succ]
      rw [this, Nat.add_assoc, Nat.add_comm 1 m]

/-- Generic invariant preservation along a left fold. -/
theorem foldl_inv {g : β → α → β} {P : β → Prop} {xs : List α} {c : β}
    (step : ∀ c x, x ∈ xs → P c → P (g c x)) (init : P c) : P (xs.foldl g c) := by
  induction xs generalizing c with
  | nil => exact init
  | cons x xs ih =>
    exact ih (fun c y hy hc => step c y (List.mem_cons_of_mem _ hy) hc)
      (step c x (List.mem_cons_self _ _) init)

/-! ## Lemmas: cell access and point update -/

theorem cellAt_neg {b : Board} {r c : Int} (h : r < 0 ∨ c < 0) : cellAt b r c = none := by
  simp [cellAt, h]

theorem cellAt_nonneg (b : Board) {r c : Int} (hr : 0 ≤ r) (hc : 0 ≤ c) :
    cellAt b r c = b[r.toNat]?.bind fun row => row[c.toNat]? := by
  have : ¬(r < 0 ∨ c < 0) := by omega
  simp [cellAt, this]

theorem updateCell_map_length (b : Board) (r c : Int) (f : CellState → CellState) :
    (updateCell b r c f).map List.length = b.map List.length := by
  unfold updateCell
  split
  · rfl
  · apply List.ext_getElem?
    intro n
    simp only [List.getElem?_map, updateNth_getElem?]
    split
    · cases h : b[n]? <;> simp [updateNth_length]
    · rfl

theorem updateCell_length (b : Board) (r c : Int) (f : CellState → CellState) :
    (updateCell b r c f).length = b.length := by
  have h := congrArg List.length (updateCell_map_length b r c f)
  simpa using h

theorem map_length_headD (b b' : Board) (h : b.map List.length = b'.map List.length) :
    (b.headD []).length = (b'.headD []).length := by
  cases b with
  | nil => cases b' with
    | nil => rfl
    | cons r' t' => simp at h
  | cons r t =>
    cases b' with
    | nil => simp at h
    | cons r' t' =>
      simp only [List.map_cons, List.cons.injEq] at h
      simpa using h.1

theorem cellAt_updateCell (b : Board) (r c : Int) (f : CellState → CellState) (r' c' : Int) :
    cellAt (updateCell b r c f) r' c' =
      if r' = r ∧ c' = c then (cellAt b r c).map f else cellAt b r' c' := by
  by_cases hneg : r < 0 ∨ c < 0
  · have hb : updateCell b r c f = b := by simp [updateCell, hneg]
    rw [hb]
    split
    · next heq =>
        rw [heq.1, heq.2, cellAt_neg hneg]
        rfl
    · rfl
  · push_neg at hneg
    obtain ⟨hr, hc⟩ := hneg
    by_cases hneg' : r' < 0 ∨ c' < 0
    · have h1 : cellAt (updateCell b r c f) r' c' = none := cellAt_neg hneg'
      have h2 : cellAt b r' c' = none := cellAt_neg hneg'
      have hcond : ¬(r' = r ∧ c' = c) := by
        rintro ⟨rfl, rfl⟩
        omega
      simp [hcond, h1, h2]
    · push_neg at hneg'
      obtain ⟨hr', hc'⟩ := hneg'
      have hu : updateCell b r c f = updateNth (updateNth f c.toNat) r.toNat b := by
        have : ¬(r < 0 ∨ c < 0) := by omega
        simp [updateCell, this]
      rw [hu, cellAt_nonneg _ hr' hc', cellAt_nonneg b hr hc, cellAt_nonneg b hr' hc',
        updateNth_getElem?]
      by_cases hrr : r.toNat = r'.toNat
      · have hrr' : r' = r := by omega
        subst hrr'
        simp only [eq_self_iff_true, if_true, true_and]
        cases hbrow : b[r'.toNat]? with
        | none => simp
        | some row =>
          show (some (updateNth f c.toNat row)).bind (fun a => a[c'.toNat]?)
              = if c' = c then (some row).bind (fun a => Option.map f a[c.toNat]?)
                else (some row).bind fun a => a[c'.toNat]?
          simp only [Option.some_bind, updateNth_getElem?]
          by_cases hcc : c.toNat = c'.toNat
          · have hcc' : c' = c := by omega
            subst hcc'
            simp [hcc]
          · have hcc' : ¬(c' = c) := by omega
            simp [hcc, hcc']
      · have hrr' : ¬(r' = r) := by omega
        have hcond : ¬(r' = r ∧ c' = c) := fun h => hrr' h.1
        simp [hrr, hcond]

theorem cellAt_cons_zero {row : List CellState} {b : Board} {c : Int} (hc : 0 ≤ c) :
    cellAt (row :: b) 0 c = row[c.toNat]? := by
  rw [cellAt_nonneg _ le_rfl hc]
  simp

theorem cellAt_cons_succ (row : List CellState) (b : Board) {r : Int} (c : Int) (hr : 0 ≤ r) :
    cellAt (row :: b) (r + 1) c = cellAt b r c := by
  by_cases hc : c < 0
  · rw [cellAt_neg (Or.inr hc), cellAt_neg (Or.inr hc)]
  · push_neg at hc
    rw [cellAt_nonneg _ (by omega) hc, cellAt_nonneg _ hr hc]
    have h1 : (r + 1).toNat = r.toNat + 1 := by omega
    simp [h1]

/-! ## Board evolution

`revealCell` only ever flips `isRevealed` from `false` to `true`, and only
on unflagged cells.  `BoardEvolve` captures that cell-by-cell relation;
it is the workhorse behind the frame and invariant claims. -/

/-- The cell either stays put, or an unflagged unrevealed cell gets revealed. -/
def CellEvolve (x y : CellState) : Prop :=
  y = x ∨ (x.isFlagged = false ∧ x.isRevealed = false ∧ y = { x with isRevealed := true })

/-- Pointwise `CellEvolve` over the whole grid. -/
def BoardEvolve (b b' : Board) : Prop :=
  List.Forall₂ (List.Forall₂ CellEvolve) b b'

theorem cellEvolve_refl (x : CellState) : CellEvolve x x := Or.inl rfl

theorem cellEvolve_trans {x y z : CellState} (h1 : CellEvolve x y) (h2 : CellEvolve y z) :
    CellEvolve x z := by
  rcases h1 with rfl | ⟨hf, hr, rfl⟩
  · exact h2
  · rcases h2 with rfl | ⟨hf2, hr2, rfl⟩
    · exact Or.inr ⟨hf, hr, rfl⟩
    · simp at hr2

theorem cellEvolve_reveal {x : CellState} (hf : x.isFlagged = false) :
    CellEvolve x { x with isRevealed := true } := by
  cases hr : x.isRevealed
  · exact Or.inr ⟨hf, hr, rfl⟩
  · left
    cases x
    simp_all

theorem cellEvolve_content {x y : CellState} (h : CellEvolve x y) : y.content = x.content := by
  rcases h with rfl | ⟨_, _, rfl⟩ <;> rfl

theorem cellEvolve_flag {x y : CellState} (h : CellEvolve x y) : y.isFlagged = x.isFlagged := by
  rcases h with rfl | ⟨_, _, rfl⟩ <;> rfl

theorem cellEvolve_rev_mono {x y : CellState} (h : CellEvolve x y)
    (hx : x.isRevealed = true) : y.isRevealed = true := by
  rcases h with rfl | ⟨_, _, rfl⟩
  · exact hx
  · rfl

theorem cellEvolve_frozen {x y : CellState} (h : CellEvolve x y)
    (hx : x.isRevealed = true) : y = x := by
  rcases h with rfl | ⟨_, hr, rfl⟩
  · rfl
  · rw [hx] at hr; cases hr

theorem cellEvolve_new_unflagged {x y : CellState} (h : CellEvolve x y)
    (hy : y.isRevealed = true) (hx : x.isRevealed = false) : x.isFlagged = false := by
  rcases h with rfl | ⟨hf, _, rfl⟩
  · rw [hy] at hx; cases hx
  · exact hf

theorem forall₂_refl_of {R : α → α → Prop} (h : ∀ a, R a a) :
    ∀ l : List α, List.Forall₂ R l l
  | [] => List.Forall₂.nil
  | a :: as => List.Forall₂.cons (h a) (forall₂_refl_of h as)

theorem forall₂_trans_of {R : α → α → Prop} (h : ∀ a b c, R a b → R b c → R a c)
    {l₁ l₂ l₃ : List α} (h12 : List.Forall₂ R l₁ l₂) (h23 : List.Forall₂ R l₂ l₃) :
    List.Forall₂ R l₁ l₃ := by
  induction h12 generalizing l₃ with
  | nil => cases h23; exact .nil
  | cons hab _ ih =>
    cases h23 with
    | cons hbc h23 => exact .cons (h _ _ _ hab hbc) (ih h23)

theorem forall₂_getElem? {R : α → β → Prop} {l₁ : List α} {l₂ : List β}
    (h : List.Forall₂ R l₁ l₂) (n : Nat) :
    (l₁[n]? = none ∧ l₂[n]? = none) ∨
      ∃ x y, l₁[n]? = some x ∧ l₂[n]? = some y ∧ R x y := by
  induction h generalizing n with
  | nil => left; simp
  | cons hab _ ih =>
    cases n with
    | zero => right; exact ⟨_, _, by simp, by simp, hab⟩
    | succ m => simpa using ih m

theorem forall₂_updateNth {R : α → α → Prop} (hrefl : ∀ a, R a a) (f : α → α) (n : Nat) :
    ∀ l : List α, (∀ a, l[n]? = some a → R a (f a)) → List.Forall₂ R l (updateNth f n l) := by
  intro l
  induction l generalizing n with
  | nil => intro _; cases n <;> exact .nil
  | cons a as ih =>
    intro hf
    cases n with
    | zero => exact .cons (hf a (by simp)) (forall₂_refl_of hrefl as)
    | succ m =>
      exact .cons (hrefl a) (ih m (fun x hx => hf x (by simpa using hx)))

theorem forall₂_countP_le {R : α → α → Prop} {p : α → Bool}
    (hp : ∀ x y, R x y → p y = true → p x = true)
    {l₁ l₂ : List α} (h : List.Forall₂ R l₁ l₂) : l₂.countP p ≤ l₁.countP p := by
  induction h with
  | nil => simp
  | @cons a b l₁ l₂ hab _ ih =>
    simp only [List.countP_cons]
    cases hpb : p b
    · simp only [Bool.false_eq_true, if_false]
      omega
    · have := hp a b hab hpb
      simp only [this, hpb, if_true]
      omega

theorem forall₂_countP_ge {R : α → α → Prop} {p : α → Bool}
    (hp : ∀ x y, R x y → p x = true → p y = true)
    {l₁ l₂ : List α} (h : List.Forall₂ R l₁ l₂) : l₁.countP p ≤ l₂.countP p := by
  induction h with
  | nil => simp
  | @cons a b l₁ l₂ hab _ ih =>
    simp only [List.countP_cons]
    cases hpa : p a
    · simp only [Bool.false_eq_true, if_false]
      omega
    · have := hp a b hab hpa
      simp only [this, hpa, if_true]
      omega

theorem boardEvolve_refl (b : Board) : BoardEvolve b b :=
  forall₂_refl_of (forall₂_refl_of cellEvolve_refl) b

theorem boardEvolve_trans {b₁ b₂ b₃ : Board} (h12 : BoardEvolve b₁ b₂)
    (h23 : BoardEvolve b₂ b₃) : BoardEvolve b₁ b₃ := by
  refine forall₂_trans_of ?_ h12 h23
  intro x y z hxy hyz
  refine forall₂_trans_of ?_ hxy hyz
  intro u v w huv hvw
  exact cellEvolve_trans huv hvw

theorem boardEvolve_map_length {b b' : Board} (h : BoardEvolve b b') :
    b.map List.length = b'.map List.length := by
  induction h with
  | nil => rfl
  | cons hrow _ ih => simp [List.Forall₂.length_eq hrow, ih]

theorem boardEvolve_length {b b' : Board} (h : BoardEvolve b b') : b'.length = b.length :=
  (List.Forall₂.length_eq h).symm

theorem boardEvolve_headD {b b' : Board} (h : BoardEvolve b b') :
    (b'.headD []).length = (b.headD []).length :=
  (map_length_headD _ _ (boardEvolve_map_length h)).symm

theorem boardEvolve_cellAt {b b' : Board} (h : BoardEvolve b b') (r c : Int) :
    (cellAt b r c = none ∧ cellAt b' r c = none) ∨
      ∃ x y, cellAt b r c = some x ∧ cellAt b' r c = some y ∧ CellEvolve x y := by
  by_cases hneg : r < 0 ∨ c < 0
  · exact Or.inl ⟨cellAt_neg hneg, cellAt_neg hneg⟩
  · push_neg at hneg
    rw [cellAt_nonneg _ hneg.1 hneg.2, cellAt_nonneg _ hneg.1 hneg.2]
    rcases forall₂_getElem? h r.toNat with ⟨h1, h2⟩ | ⟨row, row', h1, h2, hrow⟩
    · left
      simp [h1, h2]
    · simp only [h1, h2, Option.some_bind]
      rcases forall₂_getElem? hrow c.toNat with ⟨g1, g2⟩ | ⟨x, y, g1, g2, hxy⟩
      · exact Or.inl ⟨g1, g2⟩
      · exact Or.inr ⟨x, y, g1, g2, hxy⟩

theorem boardEvolve_cellAt_some {b b' : Board} (h : BoardEvolve b b') {r c : Int}
    {x : CellState} (hx : cellAt b r c = some x) :
    ∃ y, cellAt b' r c = some y ∧ CellEvolve x y := by
  rcases boardEvolve_cellAt h r c with ⟨h1, _⟩ | ⟨x', y, h1, h2, hxy⟩
  · rw [hx] at h1; cases h1
  · rw [hx] at h1
    injection h1 with h1
    subst h1
    exact ⟨y, h2, hxy⟩

theorem boardEvolve_frozen {b b' : Board} (h : BoardEvolve b b') {r c : Int} {x : CellState}
    (hx : cellAt b r c = some x) (hrev : x.isRevealed = true) : cellAt b' r c = some x := by
  obtain ⟨y, hy, hxy⟩ := boardEvolve_cellAt_some h hx
  rw [hy, cellEvolve_frozen hxy hrev]

theorem boardEvolve_unrevealedCount {b b' : Board} (h : BoardEvolve b b') :
    unrevealedCount b' ≤ unrevealedCount b := by
  unfold unrevealedCount
  induction h with
  | nil => simp
  | @cons x y l₁ l₂ hrow _ ih =>
    simp only [List.map_cons, List.sum_cons]
    have hle : ∀ a c : CellState, CellEvolve a c → (!c.isRevealed) = true → (!a.isRevealed) = true := by
      intro a c hac hc
      rcases hac with rfl | ⟨_, hr, rfl⟩
      · exact hc
      · simp at hc
    have h2 : y.countP (fun cell => !cell.isRevealed) ≤ x.countP (fun cell => !cell.isRevealed) :=
      forall₂_countP_le hle hrow
    omega

theorem boardEvolve_revealedCount {b b' : Board} (h : BoardEvolve b b') :
    revealedCount b ≤ revealedCount b' := by
  unfold revealedCount
  induction h with
  | nil => simp
  | @cons x y l₁ l₂ hrow _ ih =>
    simp only [List.map_cons, List.sum_cons]
    have hge : ∀ a c : CellState, CellEvolve a c → a.isRevealed = true → c.isRevealed = true :=
      fun _ _ hac ha => cellEvolve_rev_mono hac ha
    have h2 : x.countP (fun cell => cell.isRevealed) ≤ y.countP (fun cell => cell.isRevealed) :=
      forall₂_countP_ge hge hrow
    omega

theorem boardEvolve_updateCell_reveal {b : Board} {row col : Int} {cell : CellState}
    (hcell : cellAt b row col = some cell) (hf : cell.isFlagged = false) :
    BoardEvolve b (updateCell b row col fun x => { x with isRevealed := true }) := by
  unfold updateCell
  split
  · exact boardEvolve_refl b
  · next hneg =>
    push_neg at hneg
    rw [cellAt_nonneg _ hneg.1 hneg.2] at hcell
    apply forall₂_updateNth (forall₂_refl_of cellEvolve_refl)
    intro rowl hrowl
    apply forall₂_updateNth cellEvolve_refl
    intro x hx
    rw [hrowl] at hcell
    simp only [Option.some_bind] at hcell
    rw [hx] at hcell
    injection hcell with hcell
    subst hcell
    exact cellEvolve_reveal hf

/-! ## Structure of `revealCellFuel` -/

/-- Abbreviation for the single-cell reveal update. -/
def revealUpd (b : Board) (row col : Int) : Board :=
  updateCell b row col fun x => { x with isRevealed := true }

theorem revealCellFuel_zero (b : Board) (row col : Int) : revealCellFuel 0 b row col = b := rfl

/-- Manual unfolding equation for the successor case. -/
theorem revealCellFuel_succ (fuel : Nat) (b : Board) (row col : Int) :
    revealCellFuel (fuel + 1) b row col =
      if b.length = 0 then b
      else if (b.headD []).length = 0 then b
      else if !isValidPosition row col b.length (b.headD []).length then b
      else
        match cellAt b row col with
        | none => b
        | some cell =>
          if cell.isFlagged || cell.isRevealed then b
          else
            match cell.content with
            | CellContent.mine => revealUpd b row col
            | CellContent.num (_ + 1) => revealUpd b row col
            | CellContent.num 0 =>
              (getNeighbors row col b.length (b.headD []).length).foldl
                (fun acc p => revealCellFuel fuel acc p.row p.col) (revealUpd b row col) := rfl

theorem bnot_eq_true {x : Bool} (h : x = false) : (!x) = true := by simp [h]

theorem not_bnot_eq_true {x : Bool} (h : x = true) : ¬((!x) = true) := by simp [h]

theorem isValidPosition_eq_true {r c : Int} {rows cols : Nat} :
    isValidPosition r c rows cols = true ↔
      0 ≤ r ∧ r < (rows : Int) ∧ 0 ≤ c ∧ c < (cols : Int) := by
  simp [isValidPosition, and_assoc]

theorem revealCellFuel_noop_invalid {b : Board} (fuel : Nat) {row col : Int}
    (h : isValidPosition row col b.length (b.headD []).length = false) :
    revealCellFuel fuel b row col = b := by
  cases fuel with
  | zero => rfl
  | succ n =>
    rw [revealCellFuel_succ]
    by_cases h1 : b.length = 0
    · rw [if_pos h1]
    · rw [if_neg h1]
      by_cases h2 : (b.headD []).length = 0
      · rw [if_pos h2]
      · rw [if_neg h2, if_pos (bnot_eq_true h)]

theorem revealCellFuel_noop_none {b : Board} (fuel : Nat) {row col : Int}
    (hcell : cellAt b row col = none) : revealCellFuel fuel b row col = b := by
  cases fuel with
  | zero => rfl
  | succ n =>
    rw [revealCellFuel_succ]
    by_cases h1 : b.length = 0
    · rw [if_pos h1]
    · rw [if_neg h1]
      by_cases h2 : (b.headD []).length = 0
      · rw [if_pos h2]
      · rw [if_neg h2]
        by_cases h3 : isValidPosition row col b.length (b.headD []).length
        · rw [if_neg (not_bnot_eq_true h3)]
          simp only [hcell]
        · rw [if_pos (bnot_eq_true (by simpa using h3))]

theorem revealCellFuel_noop_cell {b : Board} (fuel : Nat) {row col : Int} {cell : CellState}
    (hcell : cellAt b row col = some cell)
    (h : cell.isFlagged = true ∨ cell.isRevealed = true) :
    revealCellFuel fuel b row col = b := by
  cases fuel with
  | zero => rfl
  | succ n =>
    rw [revealCellFuel_succ]
    by_cases h1 : b.length = 0
    · rw [if_pos h1]
    · rw [if_neg h1]
      by_cases h2 : (b.headD []).length = 0
      · rw [if_pos h2]
      · rw [if_neg h2]
        by_cases h3 : isValidPosition row col b.length (b.headD []).length
        · rw [if_neg (not_bnot_eq_true h3)]
          have h4 : (cell.isFlagged || cell.isRevealed) = true := by
            rcases h with h | h <;> simp [h]
          simp only [hcell, h4, if_true]
        · rw [if_pos (bnot_eq_true (by simpa using h3))]

/-- One unfolding in the case where all guards pass. -/
theorem revealCellFuel_succ_pass {b : Board} (fuel : Nat) {row col : Int} {cell : CellState}
    (hcell : cellAt b row col = some cell) (hf : cell.isFlagged = false)
    (hr : cell.isRevealed = false)
    (hv : isValidPosition row col b.length (b.headD []).length = true) :
    revealCellFuel (fuel + 1) b row col =
      match cell.content with
      | CellContent.num 0 =>
        (getNeighbors row col b.length (b.headD []).length).foldl
          (fun acc p => revealCellFuel fuel acc p.row p.col) (revealUpd b row col)
      | _ => revealUpd b row col := by
  obtain ⟨hr0, hrn, hc0, hcn⟩ := isValidPosition_eq_true.mp hv
  have h1 : ¬(b.length = 0) := by omega
  have h2 : ¬((b.headD []).length = 0) := by omega
  rw [revealCellFuel_succ, if_neg h1, if_neg h2, if_neg (not_bnot_eq_true hv)]
  simp only [hcell, hf, hr, Bool.or_self, Bool.false_eq_true, if_false]
  cases hcont : cell.content with
  | mine => rfl
  | num n => cases n <;> rfl

/-- `revealCellFuel` only flips `isRevealed` from `false` to `true` on
unflagged cells. -/
theorem revealCellFuel_evolve (fuel : Nat) :
    ∀ (b : Board) (row col : Int), BoardEvolve b (revealCellFuel fuel b row col) := by
  induction fuel with
  | zero => intro b row col; exact boardEvolve_refl b
  | succ n ih =>
    intro b row col
    by_cases hv : isValidPosition row col b.length (b.headD []).length
    · cases hcell : cellAt b row col with
      | none => rw [revealCellFuel_noop_none _ hcell]; exact boardEvolve_refl b
      | some cell =>
        by_cases hf : cell.isFlagged
        · rw [revealCellFuel_noop_cell _ hcell (Or.inl hf)]; exact boardEvolve_refl b
        · by_cases hrev : cell.isRevealed
          · rw [revealCellFuel_noop_cell _ hcell (Or.inr hrev)]; exact boardEvolve_refl b
          · have hf' : cell.isFlagged = false := by simpa using hf
            have hr' : cell.isRevealed = false := by simpa using hrev
            rw [revealCellFuel_succ_pass n hcell hf' hr' hv]
            have hupd : BoardEvolve b (revealUpd b row col) :=
              boardEvolve_updateCell_reveal hcell hf'
            cases cell.content with
            | mine => exact hupd
            | num k =>
              cases k with
              | zero =>
                refine foldl_inv ?_ hupd
                intro c p _ hc
                exact boardEvolve_trans hc (ih c p.row p.col)
              | succ m => exact hupd
    · rw [revealCellFuel_noop_invalid _ (by simpa using hv)]
      exact boardEvolve_refl b

theorem revealCell_evolve (b : Board) (row col : Int) :
    BoardEvolve b (revealCell b row col) :=
  revealCellFuel_evolve _ b row col

theorem cellAt_revealUpd {b : Board} {row col : Int} {cell : CellState}
    (hcell : cellAt b row col = some cell) :
    cellAt (revealUpd b row col) row col = some { cell with isRevealed := true } := by
  unfold revealUpd
  rw [cellAt_updateCell]
  simp [hcell]

/-- When the guards pass, the target cell ends up revealed. -/
theorem revealCellFuel_target {b : Board} (fuel : Nat) {row col : Int} {cell : CellState}
    (hcell : cellAt b row col = some cell) (hf : cell.isFlagged = false)
    (hr : cell.isRevealed = false)
    (hv : isValidPosition row col b.length (b.headD []).length = true) :
    cellAt (revealCellFuel (fuel + 1) b row col) row col =
      some { cell with isRevealed := true } := by
  rw [revealCellFuel_succ_pass fuel hcell hf hr hv]
  have hupd := cellAt_revealUpd hcell
  cases hcont : cell.content with
  | mine => rw [hcont] at hupd; exact hupd
  | num k =>
    rw [hcont] at hupd
    cases k with
    | zero =>
      have hev : BoardEvolve (revealUpd b row col)
          ((getNeighbors row col b.length (b.headD []).length).foldl
            (fun acc p => revealCellFuel fuel acc p.row p.col) (revealUpd b row col)) := by
        refine foldl_inv ?_ (boardEvolve_refl _)
        intro c p _ hc
        exact boardEvolve_trans hc (revealCellFuel_evolve fuel c p.row p.col)
      exact boardEvolve_frozen hev hupd rfl
    | succ m => exact hupd

/-! ## Bridges between `allCells` and `cellAt` -/

theorem allCells_cellAt {p : CellState → Bool} {b : Board} (h : allCells p b = true)
    {r c : Int} {cell : CellState} (hcell : cellAt b r c = some cell) : p cell = true := by
  by_cases hneg : r < 0 ∨ c < 0
  · rw [cellAt_neg hneg] at hcell; cases hcell
  · push_neg at hneg
    rw [cellAt_nonneg _ hneg.1 hneg.2] at hcell
    cases hrow : b[r.toNat]? with
    | none => rw [hrow] at hcell; cases hcell
    | some row =>
      rw [hrow] at hcell
      simp only [Option.some_bind] at hcell
      have hrowmem : row ∈ b := List.getElem?_mem hrow
      have hcellmem : cell ∈ row := List.getElem?_mem hcell
      have h1 := (List.all_eq_true.mp h) row hrowmem
      exact (List.all_eq_true.mp h1) cell hcellmem

theorem allCells_of_cellAt {p : CellState → Bool} {b : Board}
    (h : ∀ r c : Int, ∀ cell, cellAt b r c = some cell → p cell = true) :
    allCells p b = true := by
  apply List.all_eq_true.mpr
  intro row hrow
  apply List.all_eq_true.mpr
  intro cell hcell
  obtain ⟨n, hn⟩ := List.mem_iff_getElem?.mp hrow
  obtain ⟨m, hm⟩ := List.mem_iff_getElem?.mp hcell
  apply h (n : Int) (m : Int) cell
  rw [cellAt_nonneg _ (Int.natCast_nonneg n) (Int.natCast_nonneg m)]
  simp only [Int.toNat_natCast, hn, Option.some_bind, hm]

theorem boardEvolve_cellAt_back {b b2 : Board} (h : BoardEvolve b b2) {r c : Int}
    {y : CellState} (hy : cellAt b2 r c = some y) :
    ∃ x, cellAt b r c = some x ∧ CellEvolve x y := by
  rcases boardEvolve_cellAt h r c with ⟨_, h2⟩ | ⟨x, y2, h1, h2, hxy⟩
  · rw [hy] at h2; cases h2
  · rw [hy] at h2
    injection h2 with h2
    subst h2
    exact ⟨x, h1, hxy⟩

/-! ## Remaining no-op lemmas -/

theorem revealCellFuel_noop_rows {b : Board} (fuel : Nat) (row col : Int)
    (h : b.length = 0) : revealCellFuel fuel b row col = b := by
  cases fuel with
  | zero => rfl
  | succ n => rw [revealCellFuel_succ, if_pos h]

theorem revealCellFuel_noop_cols {b : Board} (fuel : Nat) (row col : Int)
    (h : (b.headD []).length = 0) : revealCellFuel fuel b row col = b := by
  cases fuel with
  | zero => rfl
  | succ n =>
    rw [revealCellFuel_succ]
    by_cases h1 : b.length = 0
    · rw [if_pos h1]
    · rw [if_neg h1, if_pos h]

/-! ## Structure of `toggleFlag` -/

theorem toggleFlag_noop_rows {b : Board} (row col : Int) (h : b.length = 0) :
    toggleFlag b row col = b := by
  unfold toggleFlag
  rw [if_pos h]

theorem toggleFlag_noop_cols {b : Board} (row col : Int) (h : (b.headD []).length = 0) :
    toggleFlag b row col = b := by
  unfold toggleFlag
  by_cases h1 : b.length = 0
  · rw [if_pos h1]
  · rw [if_neg h1, if_pos h]

theorem toggleFlag_noop_invalid {b : Board} {row col : Int}
    (h : isValidPosition row col b.length (b.headD []).length = false) :
    toggleFlag b row col = b := by
  unfold toggleFlag
  by_cases h1 : b.length = 0
  · rw [if_pos h1]
  · rw [if_neg h1]
    by_cases h2 : (b.headD []).length = 0
    · rw [if_pos h2]
    · rw [if_neg h2, if_pos (bnot_eq_true h)]

theorem toggleFlag_noop_none {b : Board} {row col : Int} (hcell : cellAt b row col = none) :
    toggleFlag b row col = b := by
  unfold toggleFlag
  by_cases h1 : b.length = 0
  · rw [if_pos h1]
  · rw [if_neg h1]
    by_cases h2 : (b.headD []).length = 0
    · rw [if_pos h2]
    · rw [if_neg h2]
      by_cases h3 : isValidPosition row col b.length (b.headD []).length
      · rw [if_neg (not_bnot_eq_true h3)]
        simp only [hcell]
      · rw [if_pos (bnot_eq_true (by simpa using h3))]

theorem toggleFlag_noop_revealed {b : Board} {row col : Int} {cell : CellState}
    (hcell : cellAt b row col = some cell) (h : cell.isRevealed = true) :
    toggleFlag b row col = b := by
  unfold toggleFlag
  by_cases h1 : b.length = 0
  · rw [if_pos h1]
  · rw [if_neg h1]
    by_cases h2 : (b.headD []).length = 0
    · rw [if_pos h2]
    · rw [if_neg h2]
      by_cases h3 : isValidPosition row col b.length (b.headD []).length
      · rw [if_neg (not_bnot_eq_true h3)]
        simp only [hcell, h, if_true]
      · rw [if_pos (bnot_eq_true (by simpa using h3))]

theorem toggleFlag_pass {b : Board} {row col : Int} {cell : CellState}
    (hcell : cellAt b row col = some cell) (h : cell.isRevealed = false)
    (hv : isValidPosition row col b.length (b.headD []).length = true) :
    toggleFlag b row col = updateCell b row col fun c => { c with isFlagged := !c.isFlagged } := by
  obtain ⟨hr0, hrn, hc0, hcn⟩ := isValidPosition_eq_true.mp hv
  have h1 : ¬(b.length = 0) := by omega
  have h2 : ¬((b.headD []).length = 0) := by omega
  unfold toggleFlag
  rw [if_neg h1, if_neg h2, if_neg (not_bnot_eq_true hv)]
  simp only [hcell, h, Bool.false_eq_true, if_false]

/-! ## `revealAllMines` acts cellwise -/

theorem cellAt_map {g : CellState → CellState} (b : Board) (r c : Int) :
    cellAt (b.map fun row => row.map g) r c = (cellAt b r c).map g := by
  by_cases hneg : r < 0 ∨ c < 0
  · rw [cellAt_neg hneg, cellAt_neg hneg]; rfl
  · push_neg at hneg
    rw [cellAt_nonneg _ hneg.1 hneg.2, cellAt_nonneg _ hneg.1 hneg.2]
    simp only [List.getElem?_map]
    cases b[r.toNat]? with
    | none => rfl
    | some row => simp [List.getElem?_map]

theorem revealAllMines_cellAt (b : Board) (r c : Int) :
    cellAt (revealAllMines b) r c =
      (cellAt b r c).map fun cell =>
        { cell with
          isRevealed := if cell.content == CellContent.mine then true else cell.isRevealed } :=
  cellAt_map b r c

theorem revealAllMines_map_length (b : Board) :
    (revealAllMines b).map List.length = b.map List.length := by
  unfold revealAllMines
  simp

theorem forall₂_forall₂_map_length {R : CellState → CellState → Prop} {b b2 : Board}
    (h : List.Forall₂ (List.Forall₂ R) b b2) : b.map List.length = b2.map List.length := by
  induction h with
  | nil => rfl
  | cons hrow _ ih => simp [List.Forall₂.length_eq hrow, ih]

/-! ## Claim C5 -/

/-- C5: `revealCell` returns its input unchanged whenever the board is
degenerate, the position is out of bounds, or the target cell is flagged
or already revealed (the source's "same reference" no-op contract,
rendered in the embedding as returning the input value itself). -/
theorem claim_C5_revealCell_noop (b : Board) (row col : Int)
    (h : b.length = 0 ∨ (b.headD []).length = 0 ∨
      isValidPosition row col b.length (b.headD []).length = false ∨
      ∃ cell, cellAt b row col = some cell ∧
        (cell.isFlagged = true ∨ cell.isRevealed = true)) :
    revealCell b row col = b := by
  unfold revealCell
  rcases h with h | h | h | ⟨cell, hcell, hc⟩
  · exact revealCellFuel_noop_rows _ _ _ h
  · exact revealCellFuel_noop_cols _ _ _ h
  · exact revealCellFuel_noop_invalid _ h
  · exact revealCellFuel_noop_cell _ hcell hc

theorem claim_C5_witness :
    (∃ cell, cellAt [[⟨CellContent.num 0, false, true⟩]] 0 0 = some cell ∧
      (cell.isFlagged = true ∨ cell.isRevealed = true)) ∧
    revealCell [[⟨CellContent.num 0, false, true⟩]] 0 0
      = [[⟨CellContent.num 0, false, true⟩]] :=
  ⟨⟨⟨CellContent.num 0, false, true⟩, by decide, Or.inl rfl⟩,
    claim_C5_revealCell_noop _ 0 0 (Or.inr (Or.inr (Or.inr
      ⟨⟨CellContent.num 0, false, true⟩, by decide, Or.inl rfl⟩)))⟩

/-! ## Claim C6 -/

/-- C6: `revealCell` never decreases the count of revealed cells, and a
second application with the same coordinates returns its own input
unchanged. -/
theorem claim_C6_revealCell_mono_idem (b : Board) (row col : Int)
    (hv : isValidPosition row col b.length (b.headD []).length = true) :
    revealedCount b ≤ revealedCount (revealCell b row col) ∧
      revealCell (revealCell b row col) row col = revealCell b row col := by
  refine ⟨boardEvolve_revealedCount (revealCell_evolve b row col), ?_⟩
  cases hcell : cellAt b row col with
  | none =>
    have h1 : revealCell b row col = b := revealCellFuel_noop_none _ hcell
    rw [h1]
    exact revealCellFuel_noop_none _ hcell
  | some cell =>
    by_cases hf : cell.isFlagged
    · have h1 : revealCell b row col = b := revealCellFuel_noop_cell _ hcell (Or.inl hf)
      rw [h1]
      exact revealCellFuel_noop_cell _ hcell (Or.inl hf)
    · by_cases hrev : cell.isRevealed
      · have h1 : revealCell b row col = b := revealCellFuel_noop_cell _ hcell (Or.inr hrev)
        rw [h1]
        exact revealCellFuel_noop_cell _ hcell (Or.inr hrev)
      · have hf2 : cell.isFlagged = false := by simpa using hf
        have hr2 : cell.isRevealed = false := by simpa using hrev
        have htgt : cellAt (revealCell b row col) row col
            = some { cell with isRevealed := true } := by
          unfold revealCell
          exact revealCellFuel_target _ hcell hf2 hr2 hv
        exact revealCellFuel_noop_cell _ htgt (Or.inr rfl)

theorem claim_C6_witness :
    isValidPosition 0 0 1 1 = true ∧
      (revealedCount [[⟨CellContent.num 0, false, false⟩]] ≤
          revealedCount (revealCell [[⟨CellContent.num 0, false, false⟩]] 0 0) ∧
        revealCell (revealCell [[⟨CellContent.num 0, false, false⟩]] 0 0) 0 0
          = revealCell [[⟨CellContent.num 0, false, false⟩]] 0 0) :=
  ⟨by decide, claim_C6_revealCell_mono_idem _ 0 0 (by decide)⟩

/-! ## Claim C10 -/

/-- C10: `revealCell` keeps the dimensions, every cell's content and flag,
and flips `isRevealed` only from `false` to `true`. -/
theorem claim_C10_revealCell_frame (b : Board) (row col r2 c2 : Int) (cell : CellState)
    (h : cellAt b r2 c2 = some cell) :
    (revealCell b row col).map List.length = b.map List.length ∧
      ∃ cell2, cellAt (revealCell b row col) r2 c2 = some cell2 ∧
        cell2.content = cell.content ∧ cell2.isFlagged = cell.isFlagged ∧
        (cell.isRevealed = true → cell2.isRevealed = true) := by
  have hev := revealCell_evolve b row col
  refine ⟨(boardEvolve_map_length hev).symm, ?_⟩
  obtain ⟨y, hy, hxy⟩ := boardEvolve_cellAt_some hev h
  exact ⟨y, hy, cellEvolve_content hxy, cellEvolve_flag hxy,
    fun hrev => cellEvolve_rev_mono hxy hrev⟩

theorem claim_C10_witness :
    cellAt [[⟨CellContent.mine, true, false⟩]] 0 0 = some ⟨CellContent.mine, true, false⟩ ∧
      ((revealCell [[⟨CellContent.mine, true, false⟩]] 0 0).map List.length
          = ([[⟨CellContent.mine, true, false⟩]] : Board).map List.length ∧
        ∃ cell2, cellAt (revealCell [[⟨CellContent.mine, true, false⟩]] 0 0) 0 0 = some cell2 ∧
          cell2.content = CellContent.mine ∧ cell2.isFlagged = false ∧
          ((⟨CellContent.mine, true, false⟩ : CellState).isRevealed = true →
            cell2.isRevealed = true)) :=
  ⟨by decide,
    claim_C10_revealCell_frame [[⟨CellContent.mine, true, false⟩]] 0 0 0 0
      ⟨CellContent.mine, true, false⟩ (by decide)⟩

/-! ## Claim C9 -/

/-- C9: `revealAllMines` reveals every mine cell and leaves shape, every
content, every flag, and every non-mine cell's revealed state untouched. -/
theorem claim_C9_revealAllMines (b : Board) (r c : Int) (cell : CellState)
    (h : cellAt b r c = some cell) :
    (revealAllMines b).map List.length = b.map List.length ∧
      ∃ cell2, cellAt (revealAllMines b) r c = some cell2 ∧
        cell2.content = cell.content ∧ cell2.isFlagged = cell.isFlagged ∧
        (cell.content = CellContent.mine → cell2.isRevealed = true) ∧
        (cell.content ≠ CellContent.mine → cell2.isRevealed = cell.isRevealed) := by
  refine ⟨revealAllMines_map_length b, ?_⟩
  rw [revealAllMines_cellAt, h]
  refine ⟨_, rfl, rfl, rfl, ?_, ?_⟩
  · intro hm
    simp [hm]
  · intro hm
    simp [hm]

theorem claim_C9_witness :
    cellAt [[⟨CellContent.mine, false, false⟩, ⟨CellContent.num 1, false, true⟩]] 0 0
        = some ⟨CellContent.mine, false, false⟩ ∧
      ((revealAllMines [[⟨CellContent.mine, false, false⟩, ⟨CellContent.num 1, false, true⟩]]).map
          List.length
        = ([[⟨CellContent.mine, false, false⟩, ⟨CellContent.num 1, false, true⟩]] : Board).map
            List.length ∧
      ∃ cell2,
        cellAt (revealAllMines
            [[⟨CellContent.mine, false, false⟩, ⟨CellContent.num 1, false, true⟩]]) 0 0
          = some cell2 ∧
        cell2.content = (⟨CellContent.mine, false, false⟩ : CellState).content ∧
        cell2.isFlagged = (⟨CellContent.mine, false, false⟩ : CellState).isFlagged ∧
        ((⟨CellContent.mine, false, false⟩ : CellState).content = CellContent.mine →
          cell2.isRevealed = true) ∧
        ((⟨CellContent.mine, false, false⟩ : CellState).content ≠ CellContent.mine →
          cell2.isRevealed = (⟨CellContent.mine, false, false⟩ : CellState).isRevealed)) :=
  ⟨by decide,
    claim_C9_revealAllMines
      [[⟨CellContent.mine, false, false⟩, ⟨CellContent.num 1, false, true⟩]] 0 0
      ⟨CellContent.mine, false, false⟩ (by decide)⟩

/-! ## Claim C1 (amended) -/

/-- C1, amended: the mutual-exclusion invariant (no cell both flagged and
revealed) is preserved by `revealCell` and `toggleFlag`; `revealAllMines`
preserves it provided no mine cell is flagged.  (As stated the claim fails
for `revealAllMines`: see the counterexample.) -/
theorem claim_C1_invariant (b : Board) (row col : Int) (hInv : NoFlagRevealed b) :
    NoFlagRevealed (revealCell b row col) ∧ NoFlagRevealed (toggleFlag b row col) ∧
      (NoFlaggedMine b → NoFlagRevealed (revealAllMines b)) := by
  refine ⟨?_, ?_, ?_⟩
  · apply allCells_of_cellAt
    intro r c y hy
    obtain ⟨x, hx, hxy⟩ := boardEvolve_cellAt_back (revealCell_evolve b row col) hy
    have hxinv := allCells_cellAt hInv hx
    rcases hxy with rfl | ⟨hflag, _, rfl⟩
    · exact hxinv
    · simp [hflag]
  · by_cases h1 : b.length = 0
    · rw [toggleFlag_noop_rows _ _ h1]; exact hInv
    · by_cases h2 : (b.headD []).length = 0
      · rw [toggleFlag_noop_cols _ _ h2]; exact hInv
      · by_cases h3 : isValidPosition row col b.length (b.headD []).length
        · cases hcell : cellAt b row col with
          | none => rw [toggleFlag_noop_none hcell]; exact hInv
          | some cell =>
            by_cases hrev : cell.isRevealed
            · rw [toggleFlag_noop_revealed hcell hrev]; exact hInv
            · have hr2 : cell.isRevealed = false := by simpa using hrev
              rw [toggleFlag_pass hcell hr2 h3]
              apply allCells_of_cellAt
              intro r c y hy
              rw [cellAt_updateCell] at hy
              by_cases hrc : r = row ∧ c = col
              · rw [if_pos hrc, hcell] at hy
                injection hy with hy
                subst hy
                simp [hr2]
              · rw [if_neg hrc] at hy
                exact allCells_cellAt hInv hy
        · rw [toggleFlag_noop_invalid (by simpa using h3)]; exact hInv
  · intro hm
    apply allCells_of_cellAt
    intro r c y hy
    rw [revealAllMines_cellAt] at hy
    cases hx : cellAt b r c with
    | none => rw [hx] at hy; cases hy
    | some x =>
      rw [hx] at hy
      injection hy with hy
      subst hy
      have hxinv := allCells_cellAt hInv hx
      have hxm := allCells_cellAt hm hx
      by_cases hmine : x.content = CellContent.mine
      · simp only [Bool.not_eq_true', Bool.and_eq_false_iff] at hxm
        rcases hxm with hxm | hxm
        · simp [hmine] at hxm
        · simp [hxm]
      · simp only [Bool.not_eq_true', Bool.and_eq_false_iff] at hxinv
        have hcond : (x.content == CellContent.mine) = false := by
          simpa using hmine
        simp only [hcond, if_false]
        rcases hxinv with hxinv | hxinv <;> simp [hxinv]

/-- C1 as stated is refuted by a flagged mine: `revealAllMines` reveals it
while leaving the flag, so the result has a cell both flagged and
revealed. -/
theorem claim_C1_cex :
    NoFlagRevealed [[⟨CellContent.mine, false, true⟩]] ∧
      ¬ NoFlagRevealed (revealAllMines [[⟨CellContent.mine, false, true⟩]]) := by
  constructor
  · decide
  · decide

theorem claim_C1_witness :
    NoFlagRevealed [[⟨CellContent.num 0, false, false⟩]] ∧
      (NoFlagRevealed (revealCell [[⟨CellContent.num 0, false, false⟩]] 0 0) ∧
        NoFlagRevealed (toggleFlag [[⟨CellContent.num 0, false, false⟩]] 0 0) ∧
        (NoFlaggedMine [[⟨CellContent.num 0, false, false⟩]] →
          NoFlagRevealed (revealAllMines [[⟨CellContent.num 0, false, false⟩]]))) :=
  ⟨by decide, claim_C1_invariant _ 0 0 (by decide)⟩

/-! ## Claim C7 -/

theorem minesCosmetic_all {b b2 : Board} (hagree : MinesCosmetic b b2) :
    (b.all fun row => row.all fun cell =>
        cell.content == CellContent.mine || cell.isRevealed)
      = (b2.all fun row => row.all fun cell =>
        cell.content == CellContent.mine || cell.isRevealed) := by
  induction hagree with
  | nil => rfl
  | @cons x y l₁ l₂ hrow _ ih =>
    simp only [List.all_cons]
    have hx : (x.all fun cell => cell.content == CellContent.mine || cell.isRevealed)
        = (y.all fun cell => cell.content == CellContent.mine || cell.isRevealed) := by
      induction hrow with
      | nil => rfl
      | @cons u v m₁ m₂ hcell _ ihc =>
        simp only [List.all_cons]
        obtain ⟨hcont, hne⟩ := hcell
        by_cases hmine : u.content = CellContent.mine
        · have h1 : (u.content == CellContent.mine) = true := by simpa using hmine
          have h2 : (v.content == CellContent.mine) = true := by
            rw [← hcont]; exact h1
          rw [ihc]
          simp [h1, h2]
        · rw [hne hmine, ihc]
    rw [hx, ih]

theorem minesCosmetic_refl (b : Board) : MinesCosmetic b b :=
  forall₂_refl_of (forall₂_refl_of fun _ => ⟨rfl, fun _ => rfl⟩) b

/-- C7: `checkGameWon` is true iff the board is non-degenerate and every
non-mine cell is revealed; the revealed/flagged state of mine cells does
not affect the result; the empty board loses. -/
theorem claim_C7_checkGameWon (b b2 : Board) (hagree : MinesCosmetic b b2) :
    (checkGameWon b = true ↔
      0 < b.length ∧ 0 < (b.headD []).length ∧
        ∀ row ∈ b, ∀ cell ∈ row, cell.content ≠ CellContent.mine → cell.isRevealed = true) ∧
      checkGameWon b = checkGameWon b2 ∧ checkGameWon ([] : Board) = false := by
  refine ⟨?_, ?_, rfl⟩
  · unfold checkGameWon
    constructor
    · intro h
      simp only [Bool.and_eq_true, decide_eq_true_eq, List.all_eq_true] at h
      obtain ⟨hall, hr, hc⟩ := h
      refine ⟨hr, hc, ?_⟩
      intro row hrow cell hcell hnm
      have h1 := hall row hrow cell hcell
      simp only [Bool.or_eq_true, beq_iff_eq] at h1
      tauto
    · rintro ⟨hr, hc, hall⟩
      simp only [Bool.and_eq_true, decide_eq_true_eq, List.all_eq_true]
      refine ⟨?_, hr, hc⟩
      intro row hrow cell hcell
      simp only [Bool.or_eq_true, beq_iff_eq]
      by_cases hm : cell.content = CellContent.mine
      · exact Or.inl hm
      · exact Or.inr (hall row hrow cell hcell hm)
  · unfold checkGameWon
    have hlen : b2.length = b.length := (List.Forall₂.length_eq hagree).symm
    have hhead : (b2.headD []).length = (b.headD []).length :=
      map_length_headD _ _ (forall₂_forall₂_map_length hagree).symm
    rw [minesCosmetic_all hagree, hlen, hhead]

theorem claim_C7_witness :
    MinesCosmetic [[⟨CellContent.mine, false, false⟩]] [[⟨CellContent.mine, true, true⟩]] ∧
    ((checkGameWon [[⟨CellContent.mine, false, false⟩]] = true ↔
      0 < ([[⟨CellContent.mine, false, false⟩]] : Board).length ∧
      0 < (([[⟨CellContent.mine, false, false⟩]] : Board).headD []).length ∧
        ∀ row ∈ ([[⟨CellContent.mine, false, false⟩]] : Board), ∀ cell ∈ row,
          cell.content ≠ CellContent.mine → cell.isRevealed = true) ∧
      checkGameWon [[⟨CellContent.mine, false, false⟩]]
        = checkGameWon [[⟨CellContent.mine, true, true⟩]] ∧
      checkGameWon ([] : Board) = false) :=
  ⟨List.Forall₂.cons (List.Forall₂.cons ⟨rfl, fun h => absurd rfl h⟩ List.Forall₂.nil)
      List.Forall₂.nil,
    claim_C7_checkGameWon _ _
      (List.Forall₂.cons (List.Forall₂.cons ⟨rfl, fun h => absurd rfl h⟩ List.Forall₂.nil)
        List.Forall₂.nil)⟩

/-! ## Claim C8 -/

theorem rect_row_length {b : Board} (h : Rect b = true) {row : List CellState}
    (hrow : row ∈ b) : row.length = (b.headD []).length := by
  unfold Rect at h
  have h1 := List.all_eq_true.mp h row hrow
  simpa using h1

theorem getElem?_lt_length {l : List α} {n : Nat} {a : α} (h : l[n]? = some a) :
    n < l.length := by
  by_contra hge
  rw [List.getElem?_eq_none (by omega)] at h
  cases h

theorem calculateNumbers_map_length (b : Board) (hrect : Rect b = true) :
    (calculateNumbers b).map List.length = b.map List.length := by
  unfold calculateNumbers
  by_cases h1 : b.length = 0
  · rw [if_pos h1, List.length_eq_zero.mp h1]
  · rw [if_neg h1]
    by_cases h2 : (b.headD []).length = 0
    · rw [if_pos h2]
      apply List.ext_getElem?
      intro n
      simp only [List.getElem?_map]
      cases hb : b[n]? with
      | none => rfl
      | some row =>
        have hr := rect_row_length hrect (List.getElem?_mem hb)
        have hlen : row.length = 0 := by omega
        simp [hlen]
    · rw [if_neg h2]
      apply List.ext_getElem?
      intro n
      simp only [List.getElem?_map, mapIdxFrom_getElem?]
      cases b[n]? with
      | none => rfl
      | some row => simp [mapIdxFrom_length]

theorem cellAt_calculateNumbers {b : Board} (hrect : Rect b = true) {r c : Int}
    {cell : CellState} (h : cellAt b r c = some cell) :
    cellAt (calculateNumbers b) r c =
      some (if cell.content == CellContent.mine then cell
        else { cell with content := CellContent.num (countAdjacentMines b r c) }) := by
  by_cases hneg : r < 0 ∨ c < 0
  · rw [cellAt_neg hneg] at h; cases h
  · push_neg at hneg
    rw [cellAt_nonneg _ hneg.1 hneg.2] at h
    cases hrow : b[r.toNat]? with
    | none => rw [hrow] at h; cases h
    | some row =>
      rw [hrow] at h
      simp only [Option.some_bind] at h
      have hlenb : ¬(b.length = 0) := by
        intro h0
        rw [List.length_eq_zero.mp h0] at hrow
        cases hrow
      have hrowlen : row.length = (b.headD []).length :=
        rect_row_length hrect (List.getElem?_mem hrow)
      have hclt : c.toNat < row.length := getElem?_lt_length h
      have hcols : ¬((b.headD []).length = 0) := by omega
      unfold calculateNumbers
      rw [if_neg hlenb, if_neg hcols, cellAt_nonneg _ hneg.1 hneg.2]
      simp only [mapIdxFrom_getElem?, hrow, Option.map_some', Option.some_bind, Nat.zero_add, h]
      rw [Int.toNat_of_nonneg hneg.1, Int.toNat_of_nonneg hneg.2]

/-- C8: `calculateNumbers` keeps the shape, replaces every non-mine cell's
content by `countAdjacentMines` at its position (computed on the input
board), keeps mine cells unchanged, and passes degenerate boards through
with the matching empty shape. -/
theorem claim_C8_calculateNumbers (b : Board) (hrect : Rect b = true) :
    (calculateNumbers b).map List.length = b.map List.length ∧
      (∀ r c : Int, ∀ cell, cellAt b r c = some cell →
        cellAt (calculateNumbers b) r c =
          some (if cell.content == CellContent.mine then cell
            else { cell with content := CellContent.num (countAdjacentMines b r c) })) ∧
      (b.length = 0 → calculateNumbers b = []) ∧
      ((b.headD []).length = 0 → calculateNumbers b = b.map fun _ => []) := by
  refine ⟨calculateNumbers_map_length b hrect,
    fun r c cell h => cellAt_calculateNumbers hrect h, ?_, ?_⟩
  · intro h0
    unfold calculateNumbers
    rw [if_pos h0]
  · intro h0
    unfold calculateNumbers
    by_cases h1 : b.length = 0
    · rw [if_pos h1, List.length_eq_zero.mp h1]
      rfl
    · rw [if_neg h1, if_pos h0]

theorem claim_C8_witness :
    Rect [[⟨CellContent.mine, false, false⟩, ⟨CellContent.num 5, false, false⟩]] = true ∧
      ((calculateNumbers
            [[⟨CellContent.mine, false, false⟩, ⟨CellContent.num 5, false, false⟩]]).map
          List.length
        = ([[⟨CellContent.mine, false, false⟩, ⟨CellContent.num 5, false, false⟩]] : Board).map
            List.length ∧
      (∀ r c : Int, ∀ cell,
        cellAt [[⟨CellContent.mine, false, false⟩, ⟨CellContent.num 5, false, false⟩]] r c
          = some cell →
        cellAt (calculateNumbers
            [[⟨CellContent.mine, false, false⟩, ⟨CellContent.num 5, false, false⟩]]) r c =
          some (if cell.content == CellContent.mine then cell
            else { cell with content := CellContent.num (countAdjacentMines
              [[⟨CellContent.mine, false, false⟩, ⟨CellContent.num 5, false, false⟩]] r c) })) ∧
      (([[⟨CellContent.mine, false, false⟩, ⟨CellContent.num 5, false, false⟩]] : Board).length = 0 →
        calculateNumbers
          [[⟨CellContent.mine, false, false⟩, ⟨CellContent.num 5, false, false⟩]] = []) ∧
      ((([[⟨CellContent.mine, false, false⟩, ⟨CellContent.num 5, false, false⟩]] : Board).headD
            []).length = 0 →
        calculateNumbers [[⟨CellContent.mine, false, false⟩, ⟨CellContent.num 5, false, false⟩]]
          = ([[⟨CellContent.mine, false, false⟩, ⟨CellContent.num 5, false, false⟩]] : Board).map
              fun _ => [])) :=
  ⟨by decide, claim_C8_calculateNumbers _ (by decide)⟩

/-! ## Counting lemmas for mine placement -/

theorem map_const_length (b : β) : ∀ l : List α, (l.map fun _ => b) = List.replicate l.length b
  | [] => rfl
  | a :: as => by
    rw [List.map_cons, map_const_length b as, List.length_cons, List.replicate_succ]

theorem filter_partition_length (p : α → Bool) (l : List α) :
    (l.filter p).length + (l.filter fun a => !p a).length = l.length := by
  induction l with
  | nil => rfl
  | cons a as ih =>
    cases h : p a <;> simp [List.filter_cons, h] <;> omega

theorem updateNth_getElem?_self (f : α → α) (n : Nat) (l : List α) {a : α}
    (h : l[n]? = some a) : (updateNth f n l)[n]? = some (f a) := by
  rw [updateNth_getElem?, if_pos rfl, h]
  rfl

theorem countP_swapAt (p : α → Bool) (l : List α) (i j : Nat) :
    (swapAt l i j).countP p = l.countP p := by
  unfold swapAt
  cases h1 : l[i]? with
  | none => rfl
  | some a =>
    cases h2 : l[j]? with
    | none => rfl
    | some b =>
      have hu1 : (updateNth (fun _ => b) i l)[j]? = some b := by
        rw [updateNth_getElem?]
        by_cases hij : i = j
        · subst hij
          rw [if_pos rfl, h2]
          rfl
        · rw [if_neg hij, h2]
      have e1 := countP_updateNth p (fun _ => b) i l a h1
      have e2 := countP_updateNth p (fun _ => a) j (updateNth (fun _ => b) i l) b hu1
      show (updateNth (fun _ => a) j (updateNth (fun _ => b) i l)).countP p = l.countP p
      simp only [] at e1 e2
      omega

theorem swapAt_perm (l : List α) [DecidableEq α] (i j : Nat) : (swapAt l i j).Perm l := by
  apply List.perm_iff_count.mpr
  intro a
  simp only [List.count]
  exact countP_swapAt _ l i j

theorem shuffleFrom_perm [DecidableEq α] (rand : Nat → Nat) (n : Nat) (l : List α) :
    (shuffleFrom rand n l).Perm l := by
  induction n generalizing l with
  | zero => exact List.Perm.refl l
  | succ m ih =>
    unfold shuffleFrom
    exact (ih _).trans (swapAt_perm l (m + 1) (rand (m + 1) % (m + 2)))

theorem fisherYates_perm [DecidableEq α] (rand : Nat → Nat) (l : List α) :
    (fisherYates rand l).Perm l :=
  shuffleFrom_perm rand (l.length - 1) l

/-! ## Grid and neighbour enumeration -/

theorem mem_gridPositions {rows cols : Nat} {p : Position} :
    p ∈ gridPositions rows cols ↔ isValidPosition p.row p.col rows cols = true := by
  unfold gridPositions
  rw [isValidPosition_eq_true]
  constructor
  · intro h
    obtain ⟨r, hr, hmem⟩ := List.mem_flatMap.mp h
    obtain ⟨c, hc, hpc⟩ := List.mem_map.mp hmem
    rw [List.mem_range] at hr hc
    subst hpc
    dsimp only
    omega
  · rintro ⟨hr0, hrn, hc0, hcn⟩
    apply List.mem_flatMap.mpr
    refine ⟨p.row.toNat, List.mem_range.mpr (by omega), ?_⟩
    apply List.mem_map.mpr
    refine ⟨p.col.toNat, List.mem_range.mpr (by omega), ?_⟩
    have h1 : ((p.row.toNat : Int)) = p.row := by omega
    have h2 : ((p.col.toNat : Int)) = p.col := by omega
    rw [h1, h2]

theorem gridPositions_length (rows cols : Nat) :
    (gridPositions rows cols).length = rows * cols := by
  unfold gridPositions
  rw [List.length_flatMap]
  have h1 : (List.range rows).map (List.length ∘ fun (r : Nat) =>
      (List.range cols).map fun (c : Nat) => (⟨(r : Int), (c : Int)⟩ : Position))
      = List.replicate rows cols := by
    rw [show (List.length ∘ fun (r : Nat) => (List.range cols).map
        fun (c : Nat) => (⟨(r : Int), (c : Int)⟩ : Position)) = fun _ => cols by
      funext r
      simp]
    rw [map_const_length, List.length_range]
  rw [h1, List.sum_replicate, smul_eq_mul]

theorem gridPositions_nodup (rows cols : Nat) : (gridPositions rows cols).Nodup := by
  unfold gridPositions
  apply List.nodup_flatMap.mpr
  constructor
  · intro r _
    refine List.Nodup.map ?_ (List.nodup_range cols)
    intro c1 c2 hc
    simpa using hc
  · have hnd := List.nodup_range rows
    refine List.Pairwise.imp ?_ hnd
    intro r1 r2 hne
    intro p hp1 hp2
    simp only [List.mem_map, List.mem_range] at hp1 hp2
    obtain ⟨c1, _, rfl⟩ := hp1
    obtain ⟨c2, _, h2⟩ := hp2
    have : (r2 : Int) = (r1 : Int) := congrArg Position.row h2
    omega

theorem mem_getNeighbors {row col : Int} {rows cols : Nat} {p : Position}
    (h : p ∈ getNeighbors row col rows cols) :
    ∃ d ∈ directions, p = ⟨row + d.1, col + d.2⟩ ∧
      isValidPosition p.row p.col rows cols = true := by
  unfold getNeighbors at h
  obtain ⟨d, hd, hsome⟩ := List.mem_filterMap.mp h
  by_cases hv : isValidPosition (row + d.1) (col + d.2) rows cols
  · rw [if_pos hv] at hsome
    injection hsome with hsome
    subst hsome
    exact ⟨d, hd, rfl, hv⟩
  · rw [if_neg hv] at hsome
    cases hsome

theorem mem_getNeighbors_valid {row col : Int} {rows cols : Nat} {p : Position}
    (h : p ∈ getNeighbors row col rows cols) :
    isValidPosition p.row p.col rows cols = true :=
  (mem_getNeighbors h).choose_spec.2.2

theorem directions_ne_zero {d : Int × Int} (hd : d ∈ directions) : d.1 ≠ 0 ∨ d.2 ≠ 0 := by
  simp only [directions, List.mem_cons, List.not_mem_nil, or_false] at hd
  rcases hd with rfl | rfl | rfl | rfl | rfl | rfl | rfl | rfl <;> simp

theorem mem_getNeighbors_ne {row col : Int} {rows cols : Nat} {p : Position}
    (h : p ∈ getNeighbors row col rows cols) : p ≠ ⟨row, col⟩ := by
  obtain ⟨d, hd, rfl, _⟩ := mem_getNeighbors h
  have hne := directions_ne_zero hd
  intro hcontra
  rw [Position.mk.injEq] at hcontra
  omega

theorem getNeighbors_nodup (row col : Int) (rows cols : Nat) :
    (getNeighbors row col rows cols).Nodup := by
  unfold getNeighbors
  refine List.Nodup.filterMap ?_ (by decide)
  intro d1 d2 p h1 h2
  by_cases hv1 : isValidPosition (row + d1.1) (col + d1.2) rows cols
  · rw [if_pos hv1] at h1
    by_cases hv2 : isValidPosition (row + d2.1) (col + d2.2) rows cols
    · rw [if_pos hv2] at h2
      injection h1 with h1
      injection h2 with h2
      rw [← h2] at h1
      rw [Position.mk.injEq] at h1
      have hfst : d1.1 = d2.1 := by omega
      have hsnd : d1.2 = d2.2 := by omega
      exact Prod.ext hfst hsnd
    · rw [if_neg hv2] at h2
      cases h2
  · rw [if_neg hv1] at h1
    cases h1

theorem exclusionList_nodup (rows cols : Nat) (op : Option Position) :
    (exclusionList rows cols op).Nodup := by
  cases op with
  | none => exact List.nodup_nil
  | some q =>
    refine List.nodup_cons.mpr ⟨?_, getNeighbors_nodup q.row q.col rows cols⟩
    intro hmem
    have := mem_getNeighbors_ne hmem
    apply this
    cases q
    rfl

/-! ## Pointwise description of `placeMines` and mine counting -/

theorem cellAt_some_nonneg {b : Board} {r c : Int} {cell : CellState}
    (h : cellAt b r c = some cell) : 0 ≤ r ∧ 0 ≤ c := by
  by_contra hneg
  rw [cellAt_neg (by omega)] at h
  cases h

theorem sum_map_updateNth (F : List CellState → Nat) (g : List CellState → List CellState)
    (n : Nat) (b : Board) (row : List CellState) (h : b[n]? = some row) :
    ((updateNth g n b).map F).sum + F row = (b.map F).sum + F (g row) := by
  induction b generalizing n with
  | nil => simp at h
  | cons x xs ih =>
    cases n with
    | zero =>
      simp only [List.getElem?_cons_zero] at h
      injection h with h
      subst h
      simp only [updateNth, List.map_cons, List.sum_cons]
      omega
    | succ m =>
      simp only [List.getElem?_cons_succ] at h
      have := ih m h
      simp only [updateNth, List.map_cons, List.sum_cons]
      omega

theorem countSum_updateCell (p : CellState → Bool) (b : Board) (r c : Int)
    (f : CellState → CellState) {cell : CellState} (h : cellAt b r c = some cell) :
    ((updateCell b r c f).map fun row => row.countP p).sum + (if p cell then 1 else 0)
      = (b.map fun row => row.countP p).sum + (if p (f cell) then 1 else 0) := by
  obtain ⟨hr, hc⟩ := cellAt_some_nonneg h
  rw [cellAt_nonneg _ hr hc] at h
  cases hrow : b[r.toNat]? with
  | none => rw [hrow] at h; cases h
  | some row =>
    rw [hrow] at h
    simp only [Option.some_bind] at h
    have hupd : updateCell b r c f = updateNth (updateNth f c.toNat) r.toNat b := by
      unfold updateCell
      rw [if_neg (by omega)]
    rw [hupd]
    have hsum := sum_map_updateNth (fun row => row.countP p) (updateNth f c.toNat)
      r.toNat b row hrow
    have hcnt := countP_updateNth p f c.toNat row cell h
    simp only [] at hsum
    omega

theorem cellAt_placeMines (b : Board) (ps : List Position) (r c : Int) {cell : CellState}
    (h : cellAt b r c = some cell) :
    cellAt (placeMines b ps) r c =
      some (if (⟨r, c⟩ : Position) ∈ ps then { cell with content := CellContent.mine }
        else cell) := by
  induction ps generalizing b cell with
  | nil => simpa [placeMines] using h
  | cons q qs ih =>
    have hstep : placeMines b (q :: qs)
        = placeMines (updateCell b q.row q.col
            fun x => { x with content := CellContent.mine }) qs := rfl
    rw [hstep]
    by_cases heq : (⟨r, c⟩ : Position) = q
    · have h1 : cellAt (updateCell b q.row q.col
          fun x => { x with content := CellContent.mine }) r c
          = some { cell with content := CellContent.mine } := by
        rw [cellAt_updateCell]
        have hrc : r = q.row ∧ c = q.col := by
          constructor
          · exact congrArg Position.row heq
          · exact congrArg Position.col heq
        rw [if_pos hrc, ← hrc.1, ← hrc.2, h]
        rfl
      rw [ih _ h1]
      by_cases hqs : (⟨r, c⟩ : Position) ∈ qs
      · simp [hqs, heq]
      · simp [hqs, heq]
    · have h1 : cellAt (updateCell b q.row q.col
          fun x => { x with content := CellContent.mine }) r c = some cell := by
        rw [cellAt_updateCell]
        have hrc : ¬(r = q.row ∧ c = q.col) := by
          intro hrc
          apply heq
          cases q
          simp only [Position.mk.injEq]
          exact hrc
        rw [if_neg hrc, h]
      rw [ih _ h1]
      have hmem : ((⟨r, c⟩ : Position) ∈ q :: qs) ↔ ((⟨r, c⟩ : Position) ∈ qs) := by
        simp [List.mem_cons, heq]
      by_cases hqs : (⟨r, c⟩ : Position) ∈ qs
      · simp [hqs, hmem.mpr hqs]
      · have : ¬((⟨r, c⟩ : Position) ∈ q :: qs) := fun hmem2 => hqs (hmem.mp hmem2)
        simp [hqs, this]

theorem countMines_updateCell_mine (b : Board) (r c : Int) {cell : CellState}
    (h : cellAt b r c = some cell) (hnm : cell.content ≠ CellContent.mine) :
    countMines (updateCell b r c fun x => { x with content := CellContent.mine })
      = countMines b + 1 := by
  have := countSum_updateCell (fun x => x.content == CellContent.mine) b r c
    (fun x => { x with content := CellContent.mine }) h
  have h1 : (cell.content == CellContent.mine) = false := by
    simpa using hnm
  unfold countMines
  simp only [h1, Bool.false_eq_true, if_false] at this
  simp only [beq_self_eq_true, if_true] at this
  omega

theorem countMines_placeMines (b : Board) (ps : List Position) (hnd : ps.Nodup)
    (hno : ∀ p ∈ ps, ∃ cell, cellAt b p.row p.col = some cell ∧
      cell.content ≠ CellContent.mine) :
    countMines (placeMines b ps) = countMines b + ps.length := by
  induction ps generalizing b with
  | nil => simp [placeMines]
  | cons q qs ih =>
    obtain ⟨cell, hc, hnm⟩ := hno q (List.mem_cons_self _ _)
    have hstep : placeMines b (q :: qs)
        = placeMines (updateCell b q.row q.col
            fun x => { x with content := CellContent.mine }) qs := rfl
    rw [hstep]
    have hqs : ∀ p ∈ qs, ∃ cell2, cellAt (updateCell b q.row q.col
        fun x => { x with content := CellContent.mine }) p.row p.col = some cell2 ∧
        cell2.content ≠ CellContent.mine := by
      intro p hp
      obtain ⟨cell2, hc2, hnm2⟩ := hno p (List.mem_cons_of_mem _ hp)
      have hne : ¬(p.row = q.row ∧ p.col = q.col) := by
        intro hrc
        have : p = q := by
          cases p; cases q
          simp only [Position.mk.injEq]
          exact hrc
        subst this
        exact (List.nodup_cons.mp hnd).1 hp
      refine ⟨cell2, ?_, hnm2⟩
      rw [cellAt_updateCell, if_neg hne, hc2]
    rw [ih _ (List.nodup_cons.mp hnd).2 hqs, countMines_updateCell_mine b q.row q.col hc hnm]
    simp only [List.length_cons]
    omega

/-! ## `calculateNumbers` preserves mines; empty-board facts -/

theorem countP_mapIdxFrom (p : β → Bool) (q : α → Bool) (f : Nat → α → β) (l : List α)
    (i : Nat) (h : ∀ j a, p (f j a) = q a) :
    (mapIdxFrom f i l).countP p = l.countP q := by
  induction l generalizing i with
  | nil => rfl
  | cons a as ih => simp only [mapIdxFrom, List.countP_cons, h, ih (i + 1)]

theorem sum_map_mapIdxFrom (F : β → Nat) (G : α → Nat) (f : Nat → α → β) (l : List α)
    (i : Nat) (h : ∀ j a, F (f j a) = G a) :
    ((mapIdxFrom f i l).map F).sum = (l.map G).sum := by
  induction l generalizing i with
  | nil => rfl
  | cons a as ih => simp only [mapIdxFrom, List.map_cons, List.sum_cons, h, ih (i + 1)]

theorem countMines_calculateNumbers (b : Board) (hrect : Rect b = true) :
    countMines (calculateNumbers b) = countMines b := by
  unfold calculateNumbers
  by_cases h1 : b.length = 0
  · rw [if_pos h1, List.length_eq_zero.mp h1]
  · rw [if_neg h1]
    by_cases h2 : (b.headD []).length = 0
    · rw [if_pos h2]
      unfold countMines
      rw [List.map_map]
      apply congrArg
      apply List.map_congr_left
      intro row hrow
      have hlen : row.length = 0 := by
        have := rect_row_length hrect hrow
        omega
      simp only [Function.comp_apply, List.length_eq_zero.mp hlen]
    · rw [if_neg h2]
      unfold countMines
      apply sum_map_mapIdxFrom
      intro j row2
      apply countP_mapIdxFrom
      intro k cell
      by_cases hm : (cell.content == CellContent.mine) = true
      · rw [if_pos hm]
      · rw [if_neg hm]
        have hm2 : (cell.content == CellContent.mine) = false := by
          simpa using hm
        rw [hm2]
        rfl

theorem cellAt_createEmptyBoard (rows cols : Nat) (r c : Int) :
    cellAt (createEmptyBoard rows cols) r c =
      if isValidPosition r c rows cols = true then some createEmptyCell else none := by
  by_cases hneg : r < 0 ∨ c < 0
  · rw [cellAt_neg hneg, if_neg]
    intro hv
    obtain ⟨h1, h2, h3, h4⟩ := isValidPosition_eq_true.mp hv
    omega
  · push_neg at hneg
    rw [cellAt_nonneg _ hneg.1 hneg.2]
    unfold createEmptyBoard
    rw [List.getElem?_replicate]
    by_cases hr : r.toNat < rows
    · rw [if_pos hr, Option.some_bind, List.getElem?_replicate]
      by_cases hc : c.toNat < cols
      · rw [if_pos hc, if_pos]
        rw [isValidPosition_eq_true]
        omega
      · rw [if_neg hc, if_neg]
        intro hv
        obtain ⟨h1, h2, h3, h4⟩ := isValidPosition_eq_true.mp hv
        omega
    · rw [if_neg hr]
      rw [if_neg, Option.none_bind]
      intro hv
      obtain ⟨h1, h2, h3, h4⟩ := isValidPosition_eq_true.mp hv
      omega

theorem countMines_createEmptyBoard (rows cols : Nat) :
    countMines (createEmptyBoard rows cols) = 0 := by
  unfold countMines createEmptyBoard
  rw [List.map_replicate]
  have h1 : (List.replicate cols createEmptyCell).countP
      (fun cell => cell.content == CellContent.mine) = 0 := by
    apply List.countP_eq_zero.mpr
    intro cell hcell
    rw [List.eq_of_mem_replicate hcell]
    decide
  rw [h1, List.sum_replicate, smul_eq_mul]
  omega

theorem createEmptyBoard_map_length (rows cols : Nat) :
    (createEmptyBoard rows cols).map List.length = List.replicate rows cols := by
  unfold createEmptyBoard
  rw [List.map_replicate, List.length_replicate]

theorem placeMines_map_length : ∀ (ps : List Position) (b : Board),
    (placeMines b ps).map List.length = b.map List.length
  | [], _ => rfl
  | q :: qs, b => by
    have hstep : placeMines b (q :: qs)
        = placeMines (updateCell b q.row q.col
            fun x => { x with content := CellContent.mine }) qs := rfl
    rw [hstep, placeMines_map_length qs _, updateCell_map_length]

theorem rect_of_map_length_replicate {b : Board} {rows cols : Nat}
    (h : b.map List.length = List.replicate rows cols) : Rect b = true := by
  unfold Rect
  apply List.all_eq_true.mpr
  intro row hrow
  have hmem : row.length ∈ List.replicate rows cols := by
    rw [← h]
    exact List.mem_map_of_mem _ hrow
  have hlen : row.length = cols := List.eq_of_mem_replicate hmem
  cases b with
  | nil => cases hrow
  | cons r0 t =>
    have h0 : r0.length = cols := by
      have hmem0 : r0.length ∈ List.replicate rows cols := by
        rw [← h]
        exact List.mem_map_of_mem _ (List.mem_cons_self _ _)
      exact List.eq_of_mem_replicate hmem0
    simp [hlen, h0]

/-! ## Claim C4 -/

/-- Unfolding equation for `generateMinePositions`. -/
theorem generateMinePositions_eq (rand : Nat → Nat) (rows cols mineCount : Nat)
    (op : Option Position) :
    generateMinePositions rand rows cols mineCount op
      = (fisherYates rand ((gridPositions rows cols).filter
            fun p => decide (p ∉ exclusionList rows cols op))).take
          (Nat.min mineCount (rows * cols - (exclusionList rows cols op).length)) := rfl

theorem excl_inter_grid_le (rows cols : Nat) (op : Option Position) :
    ((gridPositions rows cols).filter
        fun p => decide (p ∈ exclusionList rows cols op)).length
      ≤ (exclusionList rows cols op).length := by
  apply List.Subperm.length_le
  apply List.subperm_of_subset
  · exact ((gridPositions_nodup rows cols).filter _)
  · intro p hp
    exact of_decide_eq_true (List.mem_filter.mp hp).2

theorem allPositions_length_ge (rows cols : Nat) (op : Option Position) :
    rows * cols - (exclusionList rows cols op).length
      ≤ ((gridPositions rows cols).filter
          fun p => decide (p ∉ exclusionList rows cols op)).length := by
  have hpart := filter_partition_length
    (fun p => decide (p ∈ exclusionList rows cols op)) (gridPositions rows cols)
  have hne : ((gridPositions rows cols).filter
      fun p => decide (p ∉ exclusionList rows cols op)).length
      = ((gridPositions rows cols).filter
        fun p => !decide (p ∈ exclusionList rows cols op)).length := by
    apply congrArg
    apply List.filter_congr
    intro p _
    exact decide_not
  have hle := excl_inter_grid_le rows cols op
  have hgl := gridPositions_length rows cols
  omega

/-- C4: `generateMinePositions` returns exactly
`min(mineCount, rows*cols − |exclusionSet|)` pairwise-distinct in-bounds
positions, none in the exclusion set (first click plus its valid
neighbours; empty when absent); the count is clamped silently, down to the
empty sequence.  (Counts are natural numbers, so the subtraction is
clamped at zero, matching the source where `slice` with a negative bound
also yields the empty array.) -/
theorem claim_C4_generateMinePositions (rand : Nat → Nat) (rows cols mineCount : Nat)
    (op : Option Position) :
    (generateMinePositions rand rows cols mineCount op).length
        = Nat.min mineCount (rows * cols - (exclusionList rows cols op).length) ∧
      (generateMinePositions rand rows cols mineCount op).Nodup ∧
      ∀ p ∈ generateMinePositions rand rows cols mineCount op,
        isValidPosition p.row p.col rows cols = true ∧ p ∉ exclusionList rows cols op := by
  rw [generateMinePositions_eq]
  have hnd_all : ((gridPositions rows cols).filter
      fun p => decide (p ∉ exclusionList rows cols op)).Nodup :=
    (gridPositions_nodup rows cols).filter _
  have hperm := fisherYates_perm rand ((gridPositions rows cols).filter
    fun p => decide (p ∉ exclusionList rows cols op))
  refine ⟨?_, ?_, ?_⟩
  · rw [List.length_take, hperm.length_eq]
    have hge := allPositions_length_ge rows cols op
    exact Nat.min_eq_left (le_trans (Nat.min_le_right _ _) hge)
  · exact List.Sublist.nodup (List.take_sublist _ _) (hperm.nodup_iff.mpr hnd_all)
  · intro p hp
    have hmem : p ∈ (gridPositions rows cols).filter
        fun p => decide (p ∉ exclusionList rows cols op) :=
      hperm.mem_iff.mp (List.take_subset _ _ hp)
    obtain ⟨hg, hd⟩ := List.mem_filter.mp hmem
    exact ⟨mem_gridPositions.mp hg, of_decide_eq_true hd⟩

theorem claim_C4_witness :
    (generateMinePositions (fun _ => 0) 3 3 10 (some ⟨1, 1⟩)).length
        = Nat.min 10 (3 * 3 - (exclusionList 3 3 (some ⟨1, 1⟩)).length) ∧
      (generateMinePositions (fun _ => 0) 3 3 10 (some ⟨1, 1⟩)).Nodup ∧
      ∀ p ∈ generateMinePositions (fun _ => 0) 3 3 10 (some ⟨1, 1⟩),
        isValidPosition p.row p.col 3 3 = true ∧ p ∉ exclusionList 3 3 (some ⟨1, 1⟩) :=
  claim_C4_generateMinePositions (fun _ => 0) 3 3 10 (some ⟨1, 1⟩)

/-! ## Claim C3 -/

/-- C3: with a valid exclude position, `createBoard` places exactly
`min(mineCount, rows*cols − |{excludePosition} ∪ neighbors|)` mines, and
no mine at the exclude position or any of its neighbours. -/
theorem claim_C3_createBoard (rand : Nat → Nat) (config : GameConfig) (op : Position)
    (hrows : 0 < config.rows) (hcols : 0 < config.cols)
    (hvalid : isValidPosition op.row op.col config.rows config.cols = true) :
    countMines (createBoard rand config (some op))
        = Nat.min config.mineCount (config.rows * config.cols
            - (1 + (getNeighbors op.row op.col config.rows config.cols).length)) ∧
      isMineAt (createBoard rand config (some op)) op.row op.col = false ∧
      ∀ p ∈ getNeighbors op.row op.col config.rows config.cols,
        isMineAt (createBoard rand config (some op)) p.row p.col = false := by
  obtain ⟨rows, cols, mineCount⟩ := config
  dsimp only at hrows hcols hvalid ⊢
  obtain ⟨hlen, hnd, hmem⟩ := claim_C4_generateMinePositions rand rows cols mineCount (some op)
  have hexcl_len : (exclusionList rows cols (some op)).length
      = 1 + (getNeighbors op.row op.col rows cols).length := by
    simp [exclusionList]
    omega
  have hB0 : ∀ p ∈ generateMinePositions rand rows cols mineCount (some op),
      ∃ cell, cellAt (createEmptyBoard rows cols) p.row p.col = some cell ∧
        cell.content ≠ CellContent.mine := by
    intro p hp
    refine ⟨createEmptyCell, ?_, by decide⟩
    rw [cellAt_createEmptyBoard, if_pos (hmem p hp).1]
  have hrect : Rect (placeMines (createEmptyBoard rows cols)
      (generateMinePositions rand rows cols mineCount (some op))) = true := by
    apply rect_of_map_length_replicate
    rw [placeMines_map_length, createEmptyBoard_map_length]
  have hcount : countMines (createBoard rand ⟨rows, cols, mineCount⟩ (some op))
      = (generateMinePositions rand rows cols mineCount (some op)).length := by
    show countMines (calculateNumbers (placeMines (createEmptyBoard rows cols)
      (generateMinePositions rand rows cols mineCount (some op)))) = _
    rw [countMines_calculateNumbers _ hrect, countMines_placeMines _ _ hnd hB0,
      countMines_createEmptyBoard]
    omega
  have hsafe : ∀ q : Position, isValidPosition q.row q.col rows cols = true →
      q ∈ exclusionList rows cols (some op) →
      isMineAt (createBoard rand ⟨rows, cols, mineCount⟩ (some op)) q.row q.col = false := by
    intro q hqv hqex
    have hqout : (⟨q.row, q.col⟩ : Position)
        ∉ generateMinePositions rand rows cols mineCount (some op) := by
      intro hqo
      have hq2 : ((⟨q.row, q.col⟩ : Position) : Position) = q := rfl
      exact (hmem _ hqo).2 (by rw [hq2]; exact hqex)
    have h0 : cellAt (createEmptyBoard rows cols) q.row q.col = some createEmptyCell := by
      rw [cellAt_createEmptyBoard, if_pos hqv]
    have h1 : cellAt (placeMines (createEmptyBoard rows cols)
        (generateMinePositions rand rows cols mineCount (some op))) q.row q.col
        = some createEmptyCell := by
      rw [cellAt_placeMines _ _ _ _ h0, if_neg hqout]
    have h2 := cellAt_calculateNumbers hrect h1
    show isMineAt (calculateNumbers (placeMines (createEmptyBoard rows cols)
      (generateMinePositions rand rows cols mineCount (some op)))) q.row q.col = false
    unfold isMineAt
    rw [h2]
    rfl
  refine ⟨?_, ?_, ?_⟩
  · rw [hcount, hlen, hexcl_len]
  · exact hsafe op hvalid (List.mem_cons_self _ _)
  · intro p hp
    exact hsafe p (mem_getNeighbors_valid hp) (List.mem_cons_of_mem _ hp)

theorem claim_C3_witness :
    0 < (2 : Nat) ∧ 0 < (3 : Nat) ∧ isValidPosition 0 0 2 3 = true ∧
      (countMines (createBoard (fun _ => 0) ⟨2, 3, 1⟩ (some ⟨0, 0⟩))
          = Nat.min 1 (2 * 3 - (1 + (getNeighbors 0 0 2 3).length)) ∧
        isMineAt (createBoard (fun _ => 0) ⟨2, 3, 1⟩ (some ⟨0, 0⟩)) 0 0 = false ∧
        ∀ p ∈ getNeighbors 0 0 2 3,
          isMineAt (createBoard (fun _ => 0) ⟨2, 3, 1⟩ (some ⟨0, 0⟩)) p.row p.col = false) :=
  ⟨by decide, by decide, by decide,
    claim_C3_createBoard (fun _ => 0) ⟨2, 3, 1⟩ ⟨0, 0⟩ (by decide) (by decide) (by decide)⟩

/-! ## Pointwise state lemmas under `BoardEvolve` -/

theorem contentAt_evolve {b c : Board} (h : BoardEvolve b c) (r cc : Int) :
    contentAt c r cc = contentAt b r cc := by
  unfold contentAt
  rcases boardEvolve_cellAt h r cc with ⟨h1, h2⟩ | ⟨x, y, h1, h2, hxy⟩
  · rw [h1, h2]
  · rw [h1, h2, Option.map_some', Option.map_some', cellEvolve_content hxy]

theorem flaggedAt_evolve {b c : Board} (h : BoardEvolve b c) (r cc : Int) :
    flaggedAt c r cc = flaggedAt b r cc := by
  unfold flaggedAt
  rcases boardEvolve_cellAt h r cc with ⟨h1, h2⟩ | ⟨x, y, h1, h2, hxy⟩
  · rw [h1, h2]
  · rw [h1, h2]
    show y.isFlagged = x.isFlagged
    exact cellEvolve_flag hxy

theorem revealedAt_evolve_mono {b c : Board} (h : BoardEvolve b c) {r cc : Int}
    (hb : revealedAt b r cc = true) : revealedAt c r cc = true := by
  unfold revealedAt at hb ⊢
  rcases boardEvolve_cellAt h r cc with ⟨h1, h2⟩ | ⟨x, y, h1, h2, hxy⟩
  · rw [h1] at hb
    cases hb
  · rw [h1] at hb
    rw [h2]
    show y.isRevealed = true
    exact cellEvolve_rev_mono hxy hb

theorem revealedAt_evolve_back {b c : Board} (h : BoardEvolve b c) {r cc : Int}
    (hc : revealedAt c r cc = false) : revealedAt b r cc = false := by
  cases hb : revealedAt b r cc with
  | false => rfl
  | true => rw [revealedAt_evolve_mono h hb] at hc; cases hc

theorem noFlags_evolve {b c : Board} (h : BoardEvolve b c) (hnf : NoFlags b) : NoFlags c := by
  apply allCells_of_cellAt
  intro r cc y hy
  obtain ⟨x, hx, hxy⟩ := boardEvolve_cellAt_back h hy
  have := allCells_cellAt hnf hx
  rw [cellEvolve_flag hxy]
  exact this

theorem rect_of_map_length_eq {b c : Board} (h : b.map List.length = c.map List.length)
    (hb : Rect b = true) : Rect c = true := by
  apply List.all_eq_true.mpr
  intro row hrow
  obtain ⟨n, hn⟩ := List.mem_iff_getElem?.mp hrow
  have h1 : (c.map List.length)[n]? = some row.length := by
    rw [List.getElem?_map, hn]
    rfl
  rw [← h, List.getElem?_map] at h1
  cases hbn : b[n]? with
  | none => rw [hbn] at h1; cases h1
  | some rowb =>
    rw [hbn, Option.map_some'] at h1
    injection h1 with h1
    have h2 : rowb.length = (b.headD []).length :=
      rect_row_length hb (List.getElem?_mem hbn)
    have h3 : (b.headD []).length = (c.headD []).length := map_length_headD _ _ h
    simp only [beq_iff_eq]
    omega

theorem rect_evolve {b c : Board} (h : BoardEvolve b c) (hb : Rect b = true) :
    Rect c = true :=
  rect_of_map_length_eq (boardEvolve_map_length h) hb

theorem zeroUnrev_evolve_back {b c : Board} (h : BoardEvolve b c) {q : Position}
    (hq : ZeroUnrev c q) : ZeroUnrev b q := by
  obtain ⟨h1, h2, h3⟩ := hq
  refine ⟨?_, ?_, ?_⟩
  · rw [← contentAt_evolve h]
    exact h1
  · exact revealedAt_evolve_back h h2
  · rw [← flaggedAt_evolve h]
    exact h3

theorem zeroUnrev_evolve_fwd {b c : Board} (h : BoardEvolve b c) {q : Position}
    (hq : ZeroUnrev b q) (hrev : revealedAt c q.row q.col = false) : ZeroUnrev c q := by
  obtain ⟨h1, _, h3⟩ := hq
  refine ⟨?_, hrev, ?_⟩
  · rw [contentAt_evolve h]
    exact h1
  · rw [flaggedAt_evolve h]
    exact h3

theorem floodReach_evolve_back {b c : Board} (h : BoardEvolve b c) {s q : Position}
    (hr : FloodReach c s q) : FloodReach b s q := by
  apply Relation.ReflTransGen.mono ?_ hr
  intro x y hxy
  obtain ⟨hz, hmem⟩ := hxy
  refine ⟨zeroUnrev_evolve_back h hz, ?_⟩
  rw [boardEvolve_length h, boardEvolve_headD h] at hmem
  exact hmem

theorem noFlags_flaggedAt {b : Board} (hnf : NoFlags b) (r c : Int) :
    flaggedAt b r c = false := by
  unfold flaggedAt
  cases hcell : cellAt b r c with
  | none => rfl
  | some cell =>
    have := allCells_cellAt hnf hcell
    simpa using this

theorem noRevealed_revealedAt {b : Board} (hnr : NoRevealed b) (r c : Int) :
    revealedAt b r c = false := by
  unfold revealedAt
  cases hcell : cellAt b r c with
  | none => rfl
  | some cell =>
    have := allCells_cellAt hnr hcell
    simpa using this

theorem cellAt_some_valid {b : Board} (hrect : Rect b = true) {r c : Int} {cell : CellState}
    (h : cellAt b r c = some cell) :
    isValidPosition r c b.length (b.headD []).length = true := by
  obtain ⟨hr, hc⟩ := cellAt_some_nonneg h
  rw [cellAt_nonneg _ hr hc] at h
  cases hrow : b[r.toNat]? with
  | none => rw [hrow] at h; cases h
  | some row =>
    rw [hrow] at h
    simp only [Option.some_bind] at h
    have h1 : r.toNat < b.length := getElem?_lt_length hrow
    have h2 : c.toNat < row.length := getElem?_lt_length h
    have h3 : row.length = (b.headD []).length :=
      rect_row_length hrect (List.getElem?_mem hrow)
    rw [isValidPosition_eq_true]
    omega

theorem cellAt_of_valid {b : Board} (hrect : Rect b = true) {r c : Int}
    (hv : isValidPosition r c b.length (b.headD []).length = true) :
    ∃ cell, cellAt b r c = some cell := by
  obtain ⟨hr0, hrn, hc0, hcn⟩ := isValidPosition_eq_true.mp hv
  rw [cellAt_nonneg _ hr0 hc0]
  cases hrow : b[r.toNat]? with
  | none =>
    have := List.getElem?_eq_none_iff.mp hrow
    omega
  | some row =>
    have h3 : row.length = (b.headD []).length :=
      rect_row_length hrect (List.getElem?_mem hrow)
    cases hcell : row[c.toNat]? with
    | none =>
      have := List.getElem?_eq_none_iff.mp hcell
      omega
    | some cell => exact ⟨cell, by rw [Option.some_bind, hcell]⟩

theorem revealedAt_target {b : Board} (fuel : Nat) {row col : Int} {cell : CellState}
    (hcell : cellAt b row col = some cell) (hf : cell.isFlagged = false)
    (hr : cell.isRevealed = false)
    (hv : isValidPosition row col b.length (b.headD []).length = true) :
    revealedAt (revealCellFuel (fuel + 1) b row col) row col = true := by
  unfold revealedAt
  rw [revealCellFuel_target fuel hcell hf hr hv]

theorem unrevealedCount_revealUpd {b : Board} {row col : Int} {cell : CellState}
    (hcell : cellAt b row col = some cell) (hr : cell.isRevealed = false) :
    unrevealedCount (revealUpd b row col) + 1 = unrevealedCount b := by
  have := countSum_updateCell (fun x => !x.isRevealed) b row col
    (fun x => { x with isRevealed := true }) hcell
  simp only [hr, Bool.not_false, if_true, Bool.not_true, Bool.false_eq_true, if_false] at this
  unfold unrevealedCount revealUpd
  omega

/-! ## Flood-fill saturation -/

/-- `foldl_inv` with everything explicit, for compound invariants. -/
theorem foldl_inv2 (P : β → Prop) (g : β → α → β) (xs : List α) (c : β)
    (step : ∀ c x, x ∈ xs → P c → P (g c x)) (init : P c) : P (xs.foldl g c) :=
  foldl_inv step init

/-- Folding `revealCellFuel` over a list of valid positions reveals each
of them (used for the immediate neighbours of a zero cell). -/
theorem foldl_reveals {n : Nat} (hn : 1 ≤ n) :
    ∀ (xs : List Position) (c : Board), NoFlags c → Rect c = true →
      (∀ x ∈ xs, isValidPosition x.row x.col c.length (c.headD []).length = true) →
      ∀ x ∈ xs,
        revealedAt (xs.foldl (fun acc p => revealCellFuel n acc p.row p.col) c) x.row x.col
          = true := by
  intro xs
  induction xs with
  | nil =>
    intro c _ _ _ x hx
    cases hx
  | cons y ys ih =>
    intro c hnf hrect hvalid x hx
    have hstep : (y :: ys).foldl (fun acc p => revealCellFuel n acc p.row p.col) c
        = ys.foldl (fun acc p => revealCellFuel n acc p.row p.col)
            (revealCellFuel n c y.row y.col) := rfl
    rw [hstep]
    have hev1 : BoardEvolve c (revealCellFuel n c y.row y.col) :=
      revealCellFuel_evolve n c _ _
    have hyrev : revealedAt (revealCellFuel n c y.row y.col) y.row y.col = true := by
      obtain ⟨m, rfl⟩ : ∃ m, n = m + 1 := ⟨n - 1, by omega⟩
      obtain ⟨cy, hcy⟩ := cellAt_of_valid hrect (hvalid y (List.mem_cons_self _ _))
      by_cases hyr : cy.isRevealed = true
      · have hrevc : revealedAt c y.row y.col = true := by
          unfold revealedAt
          rw [hcy]
          exact hyr
        exact revealedAt_evolve_mono hev1 hrevc
      · have hyf : cy.isFlagged = false := by
          have := allCells_cellAt hnf hcy
          simpa using this
        exact revealedAt_target m hcy hyf (by simpa using hyr)
          (hvalid y (List.mem_cons_self _ _))
    rcases List.mem_cons.mp hx with rfl | hx2
    · have hevrest : BoardEvolve (revealCellFuel n c x.row x.col)
          (ys.foldl (fun acc p => revealCellFuel n acc p.row p.col)
            (revealCellFuel n c x.row x.col)) := by
        refine foldl_inv ?_ (boardEvolve_refl _)
        intro cc p _ hc
        exact boardEvolve_trans hc (revealCellFuel_evolve n cc p.row p.col)
      exact revealedAt_evolve_mono hevrest hyrev
    · refine ih (revealCellFuel n c y.row y.col) (noFlags_evolve hev1 hnf)
        (rect_evolve hev1 hrect) ?_ x hx2
      intro z hz
      rw [boardEvolve_length hev1, boardEvolve_headD hev1]
      exact hvalid z (List.mem_cons_of_mem _ hz)

/-- Saturation through the flood fold of the zero-cell case. -/
theorem flood_sat_zero (n : Nat)
    (IH : ∀ (b : Board) (row col : Int), NoFlags b → Rect b = true →
        unrevealedCount b < n →
        ∀ q : Position, ZeroUnrev b q →
          revealedAt (revealCellFuel n b row col) q.row q.col = true →
          ∀ p ∈ getNeighbors q.row q.col b.length (b.headD []).length,
            revealedAt (revealCellFuel n b row col) p.row p.col = true)
    (b : Board) (row col : Int) (hnf : NoFlags b) (hrect : Rect b = true)
    (hfuel : unrevealedCount b < n + 1) {cell : CellState}
    (hcell : cellAt b row col = some cell) (hf2 : cell.isFlagged = false)
    (hr2 : cell.isRevealed = false)
    (hv : isValidPosition row col b.length (b.headD []).length = true)
    (q : Position) (hq : ZeroUnrev b q)
    (hqrev : revealedAt ((getNeighbors row col b.length (b.headD []).length).foldl
        (fun acc p => revealCellFuel n acc p.row p.col)
        (revealUpd b row col)) q.row q.col = true)
    (p : Position) (hp : p ∈ getNeighbors q.row q.col b.length (b.headD []).length) :
    revealedAt ((getNeighbors row col b.length (b.headD []).length).foldl
        (fun acc p => revealCellFuel n acc p.row p.col)
        (revealUpd b row col)) p.row p.col = true := by
  have hNB : BoardEvolve b (revealUpd b row col) := boardEvolve_updateCell_reveal hcell hf2
  have hcnt := unrevealedCount_revealUpd hcell hr2
  have hn1 : 1 ≤ n := by omega
  have hfold := foldl_inv2 (fun c =>
      BoardEvolve (revealUpd b row col) c ∧
      ∀ q' : Position, ZeroUnrev b q' → ¬(q' = (⟨row, col⟩ : Position)) →
        revealedAt c q'.row q'.col = true →
        ∀ p' ∈ getNeighbors q'.row q'.col b.length (b.headD []).length,
          revealedAt c p'.row p'.col = true)
    (fun acc p => revealCellFuel n acc p.row p.col)
    (getNeighbors row col b.length (b.headD []).length)
    (revealUpd b row col) ?step ?init
  case step =>
    rintro c x hx ⟨hev, hinv⟩
    constructor
    · exact boardEvolve_trans hev (revealCellFuel_evolve n c x.row x.col)
    · intro q' hq' hne hq'rev p' hp'
      have hevbc : BoardEvolve b c := boardEvolve_trans hNB hev
      by_cases hq'c : revealedAt c q'.row q'.col = true
      · exact revealedAt_evolve_mono (revealCellFuel_evolve n c x.row x.col)
          (hinv q' hq' hne hq'c p' hp')
      · have hq'c2 : revealedAt c q'.row q'.col = false := by
          cases hcc : revealedAt c q'.row q'.col
          · rfl
          · exact absurd hcc hq'c
        have hzc : ZeroUnrev c q' := zeroUnrev_evolve_fwd hevbc hq' hq'c2
        have hcntc : unrevealedCount c < n := by
          have h1 := boardEvolve_unrevealedCount hev
          omega
        have hp'2 : p' ∈ getNeighbors q'.row q'.col c.length (c.headD []).length := by
          rw [boardEvolve_length hevbc, boardEvolve_headD hevbc]
          exact hp'
        exact IH c x.row x.col (noFlags_evolve hevbc hnf) (rect_evolve hevbc hrect)
          hcntc q' hzc hq'rev p' hp'2
  case init =>
    refine ⟨boardEvolve_refl _, ?_⟩
    intro q' hq' hne hq'rev p' hp'
    exfalso
    unfold revealedAt revealUpd at hq'rev
    rw [cellAt_updateCell] at hq'rev
    by_cases hqc : q'.row = row ∧ q'.col = col
    · apply hne
      cases q' with
      | mk a bb =>
        rw [show a = row from hqc.1, show bb = col from hqc.2]
    · rw [if_neg hqc] at hq'rev
      have hqb : revealedAt b q'.row q'.col = true := hq'rev
      rw [hq'.2.1] at hqb
      cases hqb
  · by_cases hqs : q = (⟨row, col⟩ : Position)
    · subst hqs
      apply foldl_reveals hn1 _ _ (noFlags_evolve hNB hnf) (rect_evolve hNB hrect) ?_ p hp
      intro z hz
      rw [boardEvolve_length hNB, boardEvolve_headD hNB]
      exact mem_getNeighbors_valid hz
    · exact hfold.2 q hq hqs hqrev p hp

/-- Saturation: after `revealCellFuel` with sufficient fuel, every
unrevealed unflagged zero cell that ended up revealed has all its
neighbours revealed as well. -/
theorem flood_sat : ∀ fuel : Nat, ∀ (b : Board) (row col : Int),
    NoFlags b → Rect b = true → unrevealedCount b < fuel →
    ∀ q : Position, ZeroUnrev b q →
      revealedAt (revealCellFuel fuel b row col) q.row q.col = true →
      ∀ p ∈ getNeighbors q.row q.col b.length (b.headD []).length,
        revealedAt (revealCellFuel fuel b row col) p.row p.col = true := by
  intro fuel
  induction fuel with
  | zero =>
    intro b row col _ _ hlt
    omega
  | succ n ih =>
    intro b row col hnf hrect hfuel q hq hqrev p hp
    by_cases hv : isValidPosition row col b.length (b.headD []).length
    case neg =>
      rw [revealCellFuel_noop_invalid _ (by simpa using hv)] at hqrev
      rw [hq.2.1] at hqrev
      cases hqrev
    case pos =>
      cases hcell : cellAt b row col with
      | none =>
        rw [revealCellFuel_noop_none _ hcell] at hqrev
        rw [hq.2.1] at hqrev
        cases hqrev
      | some cell =>
        by_cases hflag : cell.isFlagged = true
        · rw [revealCellFuel_noop_cell _ hcell (Or.inl hflag)] at hqrev
          rw [hq.2.1] at hqrev
          cases hqrev
        · by_cases hrev : cell.isRevealed = true
          · rw [revealCellFuel_noop_cell _ hcell (Or.inr hrev)] at hqrev
            rw [hq.2.1] at hqrev
            cases hqrev
          · have hf2 : cell.isFlagged = false := by simpa using hflag
            have hr2 : cell.isRevealed = false := by simpa using hrev
            rw [revealCellFuel_succ_pass n hcell hf2 hr2 hv] at hqrev ⊢
            revert hqrev
            cases hcont : cell.content with
            | mine =>
              intro hqrev
              exfalso
              have hqrev2 : revealedAt (revealUpd b row col) q.row q.col = true := hqrev
              unfold revealedAt revealUpd at hqrev2
              rw [cellAt_updateCell] at hqrev2
              by_cases hqc : q.row = row ∧ q.col = col
              · have hqcont : contentAt b q.row q.col = some cell.content := by
                  unfold contentAt
                  rw [hqc.1, hqc.2, hcell]
                  rfl
                rw [hq.1, hcont] at hqcont
                simp at hqcont
              · rw [if_neg hqc] at hqrev2
                have hqb : revealedAt b q.row q.col = true := hqrev2
                rw [hq.2.1] at hqb
                cases hqb
            | num k =>
              cases k with
              | succ m =>
                intro hqrev
                exfalso
                have hqrev2 : revealedAt (revealUpd b row col) q.row q.col = true := hqrev
                unfold revealedAt revealUpd at hqrev2
                rw [cellAt_updateCell] at hqrev2
                by_cases hqc : q.row = row ∧ q.col = col
                · have hqcont : contentAt b q.row q.col = some cell.content := by
                    unfold contentAt
                    rw [hqc.1, hqc.2, hcell]
                    rfl
                  rw [hq.1, hcont] at hqcont
                  simp at hqcont
                · rw [if_neg hqc] at hqrev2
                  have hqb : revealedAt b q.row q.col = true := hqrev2
                  rw [hq.2.1] at hqb
                  cases hqb
              | zero =>
                intro hqrev
                have hqrev2 : revealedAt
                    ((getNeighbors row col b.length (b.headD []).length).foldl
                      (fun acc pp => revealCellFuel n acc pp.row pp.col)
                      (revealUpd b row col)) q.row q.col = true := hqrev
                show revealedAt
                    ((getNeighbors row col b.length (b.headD []).length).foldl
                      (fun acc pp => revealCellFuel n acc pp.row pp.col)
                      (revealUpd b row col)) p.row p.col = true
                exact flood_sat_zero n ih b row col hnf hrect hfuel hcell hf2 hr2 hv
                  q hq hqrev2 p hp
/-! ## Flood-fill completeness and soundness -/

/-- Everything flood-reachable through unrevealed zero cells gets revealed. -/
theorem flood_complete (fuel : Nat) (b : Board) (row col : Int)
    (hnf : NoFlags b) (hrect : Rect b = true) (hfuel : unrevealedCount b < fuel)
    {cell : CellState} (hcell : cellAt b row col = some cell)
    (hf2 : cell.isFlagged = false) (hr2 : cell.isRevealed = false)
    (hv : isValidPosition row col b.length (b.headD []).length = true) :
    ∀ q : Position, FloodReach b ⟨row, col⟩ q → ZeroUnrev b q →
      revealedAt (revealCellFuel fuel b row col) q.row q.col = true := by
  obtain ⟨m, rfl⟩ : ∃ m, fuel = m + 1 := ⟨fuel - 1, by omega⟩
  intro q hreach
  induction hreach with
  | refl =>
    intro _
    exact revealedAt_target m hcell hf2 hr2 hv
  | @tail q0 q1 hs0 hstep ihq =>
    intro _
    obtain ⟨hz0, hmem⟩ := hstep
    have hrev0 : revealedAt (revealCellFuel (m + 1) b row col) q0.row q0.col = true :=
      ihq hz0
    exact flood_sat (m + 1) b row col hnf hrect hfuel q0 hz0 hrev0 q1 hmem

/-- Everything revealed by the flood was revealed before or lies in the
reach set of the starting position. -/
theorem flood_sound : ∀ fuel : Nat, ∀ (b : Board) (row col : Int),
    NoFlags b → Rect b = true → unrevealedCount b < fuel →
    ∀ p : Position, revealedAt (revealCellFuel fuel b row col) p.row p.col = true →
      revealedAt b p.row p.col = true ∨ ReachSet b ⟨row, col⟩ p := by
  intro fuel
  induction fuel with
  | zero =>
    intro b row col _ _ h
    omega
  | succ n ih =>
    intro b row col hnf hrect hfuel p hprev
    by_cases hv : isValidPosition row col b.length (b.headD []).length
    case neg =>
      rw [revealCellFuel_noop_invalid _ (by simpa using hv)] at hprev
      exact Or.inl hprev
    case pos =>
      cases hcell : cellAt b row col with
      | none =>
        rw [revealCellFuel_noop_none _ hcell] at hprev
        exact Or.inl hprev
      | some cell =>
        by_cases hflag : cell.isFlagged = true
        · rw [revealCellFuel_noop_cell _ hcell (Or.inl hflag)] at hprev
          exact Or.inl hprev
        · by_cases hrev : cell.isRevealed = true
          · rw [revealCellFuel_noop_cell _ hcell (Or.inr hrev)] at hprev
            exact Or.inl hprev
          · have hf2 : cell.isFlagged = false := by simpa using hflag
            have hr2 : cell.isRevealed = false := by simpa using hrev
            have hsflag : flaggedAt b row col = false := by
              unfold flaggedAt
              rw [hcell]
              exact hf2
            have hsrev : revealedAt b row col = false := by
              unfold revealedAt
              rw [hcell]
              exact hr2
            rw [revealCellFuel_succ_pass n hcell hf2 hr2 hv] at hprev
            revert hprev
            cases hcont : cell.content with
            | mine =>
              intro hprev
              have hprev2 : revealedAt (revealUpd b row col) p.row p.col = true := hprev
              unfold revealedAt revealUpd at hprev2
              rw [cellAt_updateCell] at hprev2
              by_cases hpc : p.row = row ∧ p.col = col
              · right
                refine ⟨hv, hsflag, hsrev, Or.inl ?_⟩
                cases p with
                | mk a bb => rw [show a = row from hpc.1, show bb = col from hpc.2]
              · rw [if_neg hpc] at hprev2
                exact Or.inl hprev2
            | num k =>
              cases k with
              | succ m =>
                intro hprev
                have hprev2 : revealedAt (revealUpd b row col) p.row p.col = true := hprev
                unfold revealedAt revealUpd at hprev2
                rw [cellAt_updateCell] at hprev2
                by_cases hpc : p.row = row ∧ p.col = col
                · right
                  refine ⟨hv, hsflag, hsrev, Or.inl ?_⟩
                  cases p with
                  | mk a bb => rw [show a = row from hpc.1, show bb = col from hpc.2]
                · rw [if_neg hpc] at hprev2
                  exact Or.inl hprev2
              | zero =>
                intro hprev
                have hprev2 : revealedAt
                    ((getNeighbors row col b.length (b.headD []).length).foldl
                      (fun acc pp => revealCellFuel n acc pp.row pp.col)
                      (revealUpd b row col)) p.row p.col = true := hprev
                have hNB : BoardEvolve b (revealUpd b row col) :=
                  boardEvolve_updateCell_reveal hcell hf2
                have hcnt := unrevealedCount_revealUpd hcell hr2
                have hszero : ZeroUnrev b ⟨row, col⟩ := by
                  refine ⟨?_, hsrev, hsflag⟩
                  unfold contentAt
                  rw [hcell]
                  simp only [Option.map_some']
                  rw [hcont]
                have hfold := foldl_inv2 (fun c =>
                    BoardEvolve b c ∧ BoardEvolve (revealUpd b row col) c ∧
                    ∀ pp : Position, revealedAt c pp.row pp.col = true →
                      revealedAt b pp.row pp.col = true ∨ ReachSet b ⟨row, col⟩ pp)
                  (fun acc pp => revealCellFuel n acc pp.row pp.col)
                  (getNeighbors row col b.length (b.headD []).length)
                  (revealUpd b row col) ?step ?init
                case init =>
                  refine ⟨hNB, boardEvolve_refl _, ?_⟩
                  intro pp hpp
                  unfold revealedAt revealUpd at hpp
                  rw [cellAt_updateCell] at hpp
                  by_cases hpc : pp.row = row ∧ pp.col = col
                  · right
                    refine ⟨hv, hsflag, hsrev, Or.inl ?_⟩
                    cases pp with
                    | mk a bb => rw [show a = row from hpc.1, show bb = col from hpc.2]
                  · rw [if_neg hpc] at hpp
                    exact Or.inl hpp
                case step =>
                  rintro c x hx ⟨hevb, hevNB, hinv⟩
                  refine ⟨boardEvolve_trans hevb (revealCellFuel_evolve n c x.row x.col),
                    boardEvolve_trans hevNB (revealCellFuel_evolve n c x.row x.col), ?_⟩
                  intro pp hpp
                  have hcntc : unrevealedCount c < n := by
                    have := boardEvolve_unrevealedCount hevNB
                    omega
                  rcases ih c x.row x.col (noFlags_evolve hevb hnf) (rect_evolve hevb hrect)
                      hcntc pp hpp with hc | hreach
                  · exact hinv pp hc
                  · right
                    obtain ⟨hvx, hfx, hrx, hdisj⟩ := hreach
                    refine ⟨hv, hsflag, hsrev, ?_⟩
                    have hdims1 : c.length = b.length := boardEvolve_length hevb
                    have hdims2 : (c.headD []).length = (b.headD []).length :=
                      boardEvolve_headD hevb
                    rcases hdisj with rfl | ⟨qq, hreachq, hzq, hppnb⟩
                    · right
                      exact ⟨⟨row, col⟩, Relation.ReflTransGen.refl, hszero, hx⟩
                    · right
                      have hzqb : ZeroUnrev b qq := zeroUnrev_evolve_back hevb hzq
                      have hreachb : FloodReach b x qq := floodReach_evolve_back hevb hreachq
                      refine ⟨qq, ?_, hzqb, ?_⟩
                      · exact Relation.ReflTransGen.head (show FloodStep b ⟨row, col⟩ x
                          from ⟨hszero, hx⟩) hreachb
                      · rw [hdims1, hdims2] at hppnb
                        exact hppnb
                exact hfold.2.2 p hprev2

/-! ## Claim C2 -/

theorem contentAt_eq_some {b : Board} {r c : Int} {x : CellContent}
    (h : contentAt b r c = some x) :
    ∃ cell, cellAt b r c = some cell ∧ cell.content = x := by
  unfold contentAt at h
  cases hc : cellAt b r c with
  | none => rw [hc] at h; cases h
  | some cell =>
    rw [hc] at h
    simp only [Option.map_some'] at h
    injection h with h
    exact ⟨cell, rfl, h⟩

theorem zeroReach_of_floodReach {b : Board} {s q : Position} (h : FloodReach b s q) :
    ZeroReach b s q := by
  apply Relation.ReflTransGen.mono ?_ h
  intro x y hxy
  exact ⟨hxy.1.1, hxy.2⟩

theorem floodReach_of_zeroReach {b : Board} (hnf : NoFlags b) (hnr : NoRevealed b)
    {s q : Position} (h : ZeroReach b s q) : FloodReach b s q := by
  apply Relation.ReflTransGen.mono ?_ h
  intro x y hxy
  exact ⟨⟨hxy.1, noRevealed_revealedAt hnr _ _, noFlags_flaggedAt hnf _ _⟩, hxy.2⟩

/-- Manual unfolding equation for `countAdjacentMines`. -/
theorem countAdjacentMines_eq (b : Board) (r c : Int) :
    countAdjacentMines b r c =
      if b.length = 0 then 0
      else if (b.headD []).length = 0 then 0
      else if !isValidPosition r c b.length (b.headD []).length then 0
      else ((getNeighbors r c b.length (b.headD []).length).filter
        fun p => isMineAt b p.row p.col).length := rfl

/-- With correct numbers, a zero cell has no mine among its neighbours. -/
theorem zero_cell_no_mine_neighbors {b : Board} (hrect : Rect b = true)
    (hnum : calculateNumbers b = b) {q : Position}
    (hq : contentAt b q.row q.col = some (CellContent.num 0)) :
    ∀ p ∈ getNeighbors q.row q.col b.length (b.headD []).length,
      isMineAt b p.row p.col = false := by
  obtain ⟨cellq, hcellq, hcont⟩ := contentAt_eq_some hq
  have h2 := cellAt_calculateNumbers hrect hcellq
  rw [hnum, hcellq] at h2
  injection h2 with h2
  have hmineF : ¬((cellq.content == CellContent.mine) = true) := by
    rw [hcont]
    decide
  rw [if_neg hmineF] at h2
  have h3 := congrArg CellState.content h2
  simp only [hcont] at h3
  have hv := cellAt_some_valid hrect hcellq
  obtain ⟨hr0, hrn, hc0, hcn⟩ := isValidPosition_eq_true.mp hv
  have hrows : ¬(b.length = 0) := by omega
  have hcols : ¬((b.headD []).length = 0) := by omega
  rw [countAdjacentMines_eq, if_neg hrows, if_neg hcols,
    if_neg (not_bnot_eq_true hv)] at h3
  injection h3 with h3
  have hfe : (getNeighbors q.row q.col b.length (b.headD []).length).filter
      (fun p => isMineAt b p.row p.col) = [] := List.length_eq_zero.mp h3.symm
  intro p hp
  cases hm : isMineAt b p.row p.col with
  | false => rfl
  | true =>
    exfalso
    have hmem : p ∈ (getNeighbors q.row q.col b.length (b.headD []).length).filter
        (fun p => isMineAt b p.row p.col) := List.mem_filter.mpr ⟨hp, hm⟩
    rw [hfe] at hmem
    cases hmem

/-- C2, amended: on a rectangular board with no flags and *no revealed
cells*, with correct adjacency numbers, revealing a valid zero cell
reveals exactly the connected zero region of the click plus its one-ring
border, and never reveals a mine.  (As stated — without the "no revealed
cells" restriction — the claim fails: see the counterexample.) -/
theorem claim_C2_revealCell_flood (b : Board) (row col : Int)
    (hrect : Rect b = true) (hnf : NoFlags b) (hnr : NoRevealed b)
    (hnum : calculateNumbers b = b)
    (hv : isValidPosition row col b.length (b.headD []).length = true)
    (hzero : contentAt b row col = some (CellContent.num 0)) :
    (∀ p : Position, revealedAt (revealCell b row col) p.row p.col = true ↔
        (InZeroRegion b ⟨row, col⟩ p ∨ BordersZeroRegion b ⟨row, col⟩ p)) ∧
      ∀ p : Position, isMineAt b p.row p.col = true →
        revealedAt (revealCell b row col) p.row p.col = false := by
  obtain ⟨cell, hcell, hcont⟩ := contentAt_eq_some hzero
  have hf2 : cell.isFlagged = false := by
    have := allCells_cellAt hnf hcell
    simpa using this
  have hr2 : cell.isRevealed = false := by
    have := allCells_cellAt hnr hcell
    simpa using this
  have hfuel : unrevealedCount b < unrevealedCount b + 1 := Nat.lt_succ_self _
  have hiff : ∀ p : Position, revealedAt (revealCell b row col) p.row p.col = true ↔
      (InZeroRegion b ⟨row, col⟩ p ∨ BordersZeroRegion b ⟨row, col⟩ p) := by
    intro p
    constructor
    · intro hrev
      have hrev2 : revealedAt (revealCellFuel (unrevealedCount b + 1) b row col)
          p.row p.col = true := hrev
      rcases flood_sound (unrevealedCount b + 1) b row col hnf hrect hfuel p hrev2
        with hb | hrs
      · rw [noRevealed_revealedAt hnr] at hb
        cases hb
      · obtain ⟨_, _, _, hdisj⟩ := hrs
        rcases hdisj with rfl | ⟨q, hreach, hzq, hpnb⟩
        · exact Or.inl ⟨Relation.ReflTransGen.refl, hzero⟩
        · exact Or.inr ⟨q, ⟨zeroReach_of_floodReach hreach, hzq.1⟩, hpnb⟩
    · intro hreg
      show revealedAt (revealCellFuel (unrevealedCount b + 1) b row col) p.row p.col = true
      rcases hreg with ⟨hreach, hpzero⟩ | ⟨q, ⟨hreachq, hqzero⟩, hpnb⟩
      · have hzp : ZeroUnrev b p :=
          ⟨hpzero, noRevealed_revealedAt hnr _ _, noFlags_flaggedAt hnf _ _⟩
        exact flood_complete _ b row col hnf hrect hfuel hcell hf2 hr2 hv p
          (floodReach_of_zeroReach hnf hnr hreach) hzp
      · have hzq : ZeroUnrev b q :=
          ⟨hqzero, noRevealed_revealedAt hnr _ _, noFlags_flaggedAt hnf _ _⟩
        have hqrev := flood_complete _ b row col hnf hrect hfuel hcell hf2 hr2 hv q
          (floodReach_of_zeroReach hnf hnr hreachq) hzq
        exact flood_sat _ b row col hnf hrect hfuel q hzq hqrev p hpnb
  refine ⟨hiff, ?_⟩
  intro p hpm
  cases hres : revealedAt (revealCell b row col) p.row p.col with
  | false => rfl
  | true =>
    exfalso
    rcases (hiff p).mp hres with ⟨_, hpz⟩ | ⟨q, ⟨hreachq, hqz⟩, hpnb⟩
    · obtain ⟨cp, hcp, hcpc⟩ := contentAt_eq_some hpz
      unfold isMineAt at hpm
      rw [hcp] at hpm
      have hpm2 : (cp.content == CellContent.mine) = true := hpm
      rw [hcpc] at hpm2
      exact absurd hpm2 (by decide)
    · have hnomine := zero_cell_no_mine_neighbors hrect hnum hqz p hpnb
      rw [hpm] at hnomine
      cases hnomine

/-- C2 as stated is refuted when the board already has revealed cells: on
a 1×5 all-zero row whose middle cell is pre-revealed, the flood from
(0,0) stops at the revealed cell, leaving (0,3) unrevealed although it
lies in the connected zero region of (0,0); all of the claim's stated
hypotheses (no flags, correct numbers, valid zero start) hold. -/
theorem claim_C2_cex :
    NoFlags ([[⟨CellContent.num 0, false, false⟩, ⟨CellContent.num 0, false, false⟩, ⟨CellContent.num 0, true, false⟩, ⟨CellContent.num 0, false, false⟩, ⟨CellContent.num 0, false, false⟩]] : Board) ∧
      calculateNumbers ([[⟨CellContent.num 0, false, false⟩, ⟨CellContent.num 0, false, false⟩, ⟨CellContent.num 0, true, false⟩, ⟨CellContent.num 0, false, false⟩, ⟨CellContent.num 0, false, false⟩]] : Board) = ([[⟨CellContent.num 0, false, false⟩, ⟨CellContent.num 0, false, false⟩, ⟨CellContent.num 0, true, false⟩, ⟨CellContent.num 0, false, false⟩, ⟨CellContent.num 0, false, false⟩]] : Board) ∧
      isValidPosition 0 0 ([[⟨CellContent.num 0, false, false⟩, ⟨CellContent.num 0, false, false⟩, ⟨CellContent.num 0, true, false⟩, ⟨CellContent.num 0, false, false⟩, ⟨CellContent.num 0, false, false⟩]] : Board).length (([[⟨CellContent.num 0, false, false⟩, ⟨CellContent.num 0, false, false⟩, ⟨CellContent.num 0, true, false⟩, ⟨CellContent.num 0, false, false⟩, ⟨CellContent.num 0, false, false⟩]] : Board).headD []).length = true ∧
      contentAt ([[⟨CellContent.num 0, false, false⟩, ⟨CellContent.num 0, false, false⟩, ⟨CellContent.num 0, true, false⟩, ⟨CellContent.num 0, false, false⟩, ⟨CellContent.num 0, false, false⟩]] : Board) 0 0 = some (CellContent.num 0) ∧
      InZeroRegion ([[⟨CellContent.num 0, false, false⟩, ⟨CellContent.num 0, false, false⟩, ⟨CellContent.num 0, true, false⟩, ⟨CellContent.num 0, false, false⟩, ⟨CellContent.num 0, false, false⟩]] : Board) ⟨0, 0⟩ ⟨0, 3⟩ ∧
      revealedAt (revealCell ([[⟨CellContent.num 0, false, false⟩, ⟨CellContent.num 0, false, false⟩, ⟨CellContent.num 0, true, false⟩, ⟨CellContent.num 0, false, false⟩, ⟨CellContent.num 0, false, false⟩]] : Board) 0 0) 0 3 = false := by
  refine ⟨by decide, by decide, by decide, by decide, ⟨?_, by decide⟩, by decide⟩
  have h1 : ZeroStep ([[⟨CellContent.num 0, false, false⟩, ⟨CellContent.num 0, false, false⟩, ⟨CellContent.num 0, true, false⟩, ⟨CellContent.num 0, false, false⟩, ⟨CellContent.num 0, false, false⟩]] : Board) ⟨0, 0⟩ ⟨0, 1⟩ := by
    unfold ZeroStep
    exact ⟨by decide, by decide⟩
  have h2 : ZeroStep ([[⟨CellContent.num 0, false, false⟩, ⟨CellContent.num 0, false, false⟩, ⟨CellContent.num 0, true, false⟩, ⟨CellContent.num 0, false, false⟩, ⟨CellContent.num 0, false, false⟩]] : Board) ⟨0, 1⟩ ⟨0, 2⟩ := by
    unfold ZeroStep
    exact ⟨by decide, by decide⟩
  have h3 : ZeroStep ([[⟨CellContent.num 0, false, false⟩, ⟨CellContent.num 0, false, false⟩, ⟨CellContent.num 0, true, false⟩, ⟨CellContent.num 0, false, false⟩, ⟨CellContent.num 0, false, false⟩]] : Board) ⟨0, 2⟩ ⟨0, 3⟩ := by
    unfold ZeroStep
    exact ⟨by decide, by decide⟩
  exact Relation.ReflTransGen.head h1
    (Relation.ReflTransGen.head h2 (Relation.ReflTransGen.single h3))

theorem claim_C2_witness :
    (Rect (createBoardWithMines 3 3 [⟨0, 0⟩]) = true ∧ NoFlags (createBoardWithMines 3 3 [⟨0, 0⟩]) ∧ NoRevealed (createBoardWithMines 3 3 [⟨0, 0⟩]) ∧
      calculateNumbers (createBoardWithMines 3 3 [⟨0, 0⟩]) = createBoardWithMines 3 3 [⟨0, 0⟩] ∧
      isValidPosition 2 2 (createBoardWithMines 3 3 [⟨0, 0⟩]).length ((createBoardWithMines 3 3 [⟨0, 0⟩]).headD []).length = true ∧
      contentAt (createBoardWithMines 3 3 [⟨0, 0⟩]) 2 2 = some (CellContent.num 0)) ∧
    ((∀ p : Position,
        revealedAt (revealCell (createBoardWithMines 3 3 [⟨0, 0⟩]) 2 2) p.row p.col = true ↔
          (InZeroRegion (createBoardWithMines 3 3 [⟨0, 0⟩]) ⟨2, 2⟩ p ∨ BordersZeroRegion (createBoardWithMines 3 3 [⟨0, 0⟩]) ⟨2, 2⟩ p)) ∧
      ∀ p : Position, isMineAt (createBoardWithMines 3 3 [⟨0, 0⟩]) p.row p.col = true →
        revealedAt (revealCell (createBoardWithMines 3 3 [⟨0, 0⟩]) 2 2) p.row p.col = false) :=
  ⟨⟨by decide, by decide, by decide, by decide, by decide, by decide⟩,
    claim_C2_revealCell_flood (createBoardWithMines 3 3 [⟨0, 0⟩]) 2 2
      (by decide) (by decide) (by decide) (by decide) (by decide) (by decide)⟩

end Minesweeper

